import Mathlib

/- Shallow embedding of the XMLON encoder/decoder (src/index.js).

   JavaScript values are modeled by `Value`.  The streaming XML writer
   (xml-writer, an external collaborator) is modeled by the element tree
   `XTree` its calls build; the streaming XML parser (sax, also external) is
   modeled by the list of callback `Event`s it fires for such a document.
   JS numbers and Date timestamps are modeled at integer (millisecond)
   precision, which is within the round-off allowance the specification
   grants to `Number` and `Date`; their `toString`/`parseFloat`/`toISOString`
   text forms are modeled by a verified decimal codec. -/

inductive Value where
  | null
  | bool (b : Bool)
  | num (n : Int)
  | str (s : String)
  | date (ms : Int)
  | arr (elems : List Value)
  | obj (fields : List (String × Value))
  | func

/- Decimal text codec: models the decimal rendering JS produces for integer
   numbers (Number.prototype.toString) and the inverse parse. -/

def digitChar (d : Nat) : Char := Char.ofNat (48 + d)

def decDigitsAux : Nat → Nat → List Char
  | 0, _ => []
  | fuel+1, n => if n = 0 then [] else digitChar (n % 10) :: decDigitsAux fuel (n / 10)

def decStr (n : Nat) : String :=
  if n = 0 then "0" else String.mk (decDigitsAux n n).reverse

def decStrInt : Int → String
  | .ofNat n => decStr n
  | .negSucc m => "-" ++ decStr (m + 1)

def isDigitCh (c : Char) : Bool := 48 ≤ c.toNat && c.toNat ≤ 57

def parseDecCore : List Char → Nat → Option Nat
  | [], acc => some acc
  | c :: t, acc => if isDigitCh c then parseDecCore t (acc * 10 + (c.toNat - 48)) else none

def parseDecNat (s : String) : Option Nat :=
  match s.data with
  | [] => none
  | l => parseDecCore l 0

def parseDecInt (s : String) : Option Int :=
  match s.data with
  | [] => none
  | c :: t =>
    if c = '-' then (parseDecCore t 0).map fun n => -(n : Int)
    else (parseDecCore (c :: t) 0).map fun n => (n : Int)

/- The XML document model.  An element as built by the writer: tag name, the
   attributes written right after startElement, the text content written by
   writer.text (if any) and the child elements.  Attribute values and text are
   stored unescaped: the writer escapes and the parser unescapes, and those two
   external collaborators are inverse on character data by contract. -/

inductive XTree where
  | elem (tag : String) (attrs : List (String × String)) (txt : Option String)
         (children : List XTree)

def XTree.tagOf : XTree → String
  | .elem t _ _ _ => t

def XTree.attrsOf : XTree → List (String × String)
  | .elem _ a _ _ => a

def XTree.txtOf : XTree → Option String
  | .elem _ _ x _ => x

def XTree.childrenOf : XTree → List XTree
  | .elem _ _ _ c => c

/- Events fired by the sax parser over a document, in document order.  An
   element that the writer closed without writing text or children is emitted
   as `<tag .../>`: sax then reports the open tag with isSelfClosing = true,
   still followed by an onclosetag event.  Error events model calls of the
   parser's onerror callback. -/

inductive Event where
  | openTag (tag : String) (attrs : List (String × String)) (selfClosing : Bool)
  | text (t : String)
  | close
  | err (msg : String)

/- getTagname from src/index.js: instanceof Date, instanceof Array, else
   typeof (typeof null is the string "object" in JS). -/
def getTagname : Value → String
  | .date _ => "date"
  | .arr _ => "array"
  | .null => "object"
  | .bool _ => "boolean"
  | .num _ => "number"
  | .str _ => "string"
  | .obj _ => "object"
  | .func => "function"

def Value.isFunc : Value → Bool
  | .func => true
  | _ => false

/- ISO-8601 rendering of a Date, modeled by its millisecond timestamp in
   decimal (Date.prototype.toISOString is injective at millisecond resolution
   and new Date(·) inverts it; the exact calendar syntax is immaterial to the
   encoding). -/
def isoOf (ms : Int) : String := decStrInt ms

/- The text content stringifyValue writes for a value (writer.text calls):
   toISOString for dates, value.toString() otherwise; containers and null get
   no text (for..in over null iterates nothing), and a function value makes
   stringifyValue return without writing. -/
def stringifyText : Value → Option String
  | .date ms => some (isoOf ms)
  | .bool b => some (if b then "true" else "false")
  | .num n => some (decStrInt n)
  | .str s => some s
  | _ => none

mutual
/- The child elements stringifyValue writes for a value: one element per
   array entry / object field, skipping function-typed entries
   (`if (typeof value[n] === 'function') continue`).  Array entries are
   attributed with their zero-based index rendered as text (writeAttribute
   coerces the number n to its decimal string). -/
def stringifyChildren : Value → List XTree
  | .arr xs => stringifyElems 0 xs
  | .obj fs => stringifyFields fs
  | _ => []

def stringifyElems : Nat → List Value → List XTree
  | _, [] => []
  | n, x :: t =>
    if x.isFunc then stringifyElems (n + 1) t
    else stringifyEntry (decStr n) x :: stringifyElems (n + 1) t

def stringifyFields : List (String × Value) → List XTree
  | [] => []
  | (k, x) :: t =>
    if x.isFunc then stringifyFields t
    else stringifyEntry k x :: stringifyFields t

/- The element written for the entry (key, value): startElement(getTagname),
   writeAttribute('name', key), stringifyValue, endElement. -/
def stringifyEntry (key : String) (v : Value) : XTree :=
  .elem (getTagname v) [("name", key)] (stringifyText v) (stringifyChildren v)
end

mutual
/- The sax events fired for an element tree.  The writer emits `<t a="v"/>`
   when an element got neither text nor children, and sax then reports
   isSelfClosing = true; a text write of "" closes the start tag but fires no
   ontext event. -/
def treeEvents : XTree → List Event
  | .elem tag attrs txt cs =>
    if txt.isNone && cs.isEmpty then
      [.openTag tag attrs true, .close]
    else
      .openTag tag attrs false ::
        ((match txt with
          | some s => if s = "" then [] else [.text s]
          | none => []) ++ treesEvents cs ++ [.close])

def treesEvents : List XTree → List Event
  | [] => []
  | c :: t => treeEvents c ++ treesEvents t
end

/- Key passed to a reviver/replacer call: a number for array entries, a string
   for object properties. -/
inductive JKey where
  | idx (n : Nat)
  | prop (s : String)
deriving DecidableEq

/- A reviver may throw (modeled as Except String); returning the undefined
   sentinel is modeled by `none`. -/
def Reviver := JKey → Value → Except String (Option Value)

def Replacer := JKey → Value → Option Value

inductive SErr where
  | rangeErr
  | outOfFuel
deriving DecidableEq

inductive PErr where
  | typeErr
  | outOfFuel
  | reviverErr (e : String)
deriving DecidableEq

/- clone from Stringify (src/index.js lines 165-189), instrumented with the
   list of (key, value) arguments the replacer is called on.  The JS function
   recurses into the value the replacer RETURNS, which need not shrink, so the
   embedding carries fuel.  Note the source quirks kept here: typeof null is
   "object", so clone(null) = {} (an empty object); functions fall through to
   the final else and are returned unchanged. -/
def cloneElems (f : Value → Except SErr (Value × List (JKey × Value)))
    (r : Replacer) : Nat → List Value → Except SErr (List Value × List (JKey × Value))
  | _, [] => .ok ([], [])
  | n, x :: t =>
    match r (.idx n) x with
    | none =>
      match cloneElems f r (n + 1) t with
      | .error er => .error er
      | .ok (vs, cs) => .ok (vs, (JKey.idx n, x) :: cs)
    | some e =>
      match f e with
      | .error er => .error er
      | .ok (w, cs1) =>
        match cloneElems f r (n + 1) t with
        | .error er => .error er
        | .ok (vs, cs2) => .ok (w :: vs, (JKey.idx n, x) :: (cs1 ++ cs2))

def cloneFields (f : Value → Except SErr (Value × List (JKey × Value)))
    (r : Replacer) : List (String × Value) →
      Except SErr (List (String × Value) × List (JKey × Value))
  | [] => .ok ([], [])
  | (k, x) :: t =>
    match r (.prop k) x with
    | none =>
      match cloneFields f r t with
      | .error er => .error er
      | .ok (ws, cs) => .ok (ws, (JKey.prop k, x) :: cs)
    | some e =>
      match f e with
      | .error er => .error er
      | .ok (w, cs1) =>
        match cloneFields f r t with
        | .error er => .error er
        | .ok (ws, cs2) => .ok ((k, w) :: ws, (JKey.prop k, x) :: (cs1 ++ cs2))

def clone : Nat → Replacer → Value → Except SErr (Value × List (JKey × Value))
  | 0, _, _ => .error .outOfFuel
  | fuel + 1, r, v =>
    match v with
    | .date ms => .ok (.date ms, [])
    | .arr xs =>
      match cloneElems (clone fuel r) r 0 xs with
      | .error er => .error er
      | .ok (vs, cs) => .ok (.arr vs, cs)
    | .null => .ok (.obj [], [])
    | .obj fs =>
      match cloneFields (clone fuel r) r fs with
      | .error er => .error er
      | .ok (ws, cs) => .ok (.obj ws, cs)
    | v => .ok (v, [])

/- revive from Parse (src/index.js lines 90-115), instrumented the same way.
   Same shape as clone: dates pass through; reviver errors propagate; typeof
   null is "object", so revive(null) = {}. -/
def reviveElems (f : Value → Except PErr (Value × List (JKey × Value)))
    (r : Reviver) : Nat → List Value → Except PErr (List Value × List (JKey × Value))
  | _, [] => .ok ([], [])
  | n, x :: t =>
    match r (.idx n) x with
    | .error e => .error (.reviverErr e)
    | .ok none =>
      match reviveElems f r (n + 1) t with
      | .error er => .error er
      | .ok (vs, cs) => .ok (vs, (JKey.idx n, x) :: cs)
    | .ok (some e) =>
      match f e with
      | .error er => .error er
      | .ok (w, cs1) =>
        match reviveElems f r (n + 1) t with
        | .error er => .error er
        | .ok (vs, cs2) => .ok (w :: vs, (JKey.idx n, x) :: (cs1 ++ cs2))

def reviveFields (f : Value → Except PErr (Value × List (JKey × Value)))
    (r : Reviver) : List (String × Value) →
      Except PErr (List (String × Value) × List (JKey × Value))
  | [] => .ok ([], [])
  | (k, x) :: t =>
    match r (.prop k) x with
    | .error e => .error (.reviverErr e)
    | .ok none =>
      match reviveFields f r t with
      | .error er => .error er
      | .ok (ws, cs) => .ok (ws, (JKey.prop k, x) :: cs)
    | .ok (some e) =>
      match f e with
      | .error er => .error er
      | .ok (w, cs1) =>
        match reviveFields f r t with
        | .error er => .error er
        | .ok (ws, cs2) => .ok ((k, w) :: ws, (JKey.prop k, x) :: (cs1 ++ cs2))

def revive : Nat → Reviver → Value → Except PErr (Value × List (JKey × Value))
  | 0, _, _ => .error .outOfFuel
  | fuel + 1, r, v =>
    match v with
    | .date ms => .ok (.date ms, [])
    | .arr xs =>
      match reviveElems (revive fuel r) r 0 xs with
      | .error er => .error er
      | .ok (vs, cs) => .ok (.arr vs, cs)
    | .null => .ok (.obj [], [])
    | .obj fs =>
      match reviveFields (revive fuel r) r fs with
      | .error er => .error er
      | .ok (ws, cs) => .ok (.obj ws, cs)
    | v => .ok (v, [])

/- ------------------------------------------------------------------ -/
/- The decoder: Parse's sax handlers (src/index.js lines 15-87).       -/

/- The container currently being filled ([] for the array tag, else {}),
   also standing for the synthetic outer object `obj`. -/
inductive Cur where
  | arr (elems : List Value)
  | obj (fields : List (String × Value))

def setKey : List (String × Value) → String → Value → List (String × Value)
  | [], k, v => [(k, v)]
  | (k', v') :: t, k, v => if k' = k then (k, v) :: t else (k', v') :: setKey t k v

/- Assigning current[k] = v on a JS array: a canonical decimal key is an index
   assignment (beyond-length assignments leave holes, modeled as null); other
   keys become non-index properties, invisible to the Value model. -/
def setIdx (xs : List Value) (k : String) (v : Value) : List Value :=
  match parseDecNat k with
  | none => xs
  | some n =>
    if n < xs.length then xs.set n v
    else xs ++ List.replicate (n - xs.length) .null ++ [v]

def Cur.store : Cur → String → Value → Cur
  | .arr xs, k, v => .arr (setIdx xs k v)
  | .obj fs, k, v => .obj (setKey fs k v)

def Cur.toValue : Cur → Value
  | .arr xs => .arr xs
  | .obj fs => .obj fs

def lookupField : List (String × Value) → String → Option Value
  | [], _ => none
  | (k', v) :: t, k => if k' = k then some v else lookupField t k

def Cur.lookupKey : Cur → String → Option Value
  | .obj fs, k => lookupField fs k
  | .arr xs, k => (parseDecNat k).bind fun n => xs.get? n

def lookupAttr : List (String × String) → String → Option String
  | [], _ => none
  | (k', v) :: t, k => if k' = k then some v else lookupAttr t k

/- node.attributes.name; an absent attribute is undefined, and a JS property
   access with an undefined key coerces it to the string "undefined". -/
def nameOf (attrs : List (String × String)) : String :=
  (lookupAttr attrs "name").getD "undefined"

inductive DType where
  | basic
  | array
  | object
  | nullT
deriving DecidableEq

/- An entry of the handlers' path stack: the node's tag, its (coerced) name
   attribute, the dataType assigned in onopentag, and for array/object nodes
   the saved parentObject contents. -/
structure PNode where
  tag : String
  nameAttr : String
  dtype : DType
  parentObj : Option Cur

structure PState where
  path : List PNode
  current : Cur
  dead : Bool
  rootKey : Option String
  log : List String

def basicTag (t : String) : Bool :=
  t = "date" || t = "number" || t = "string" || t = "boolean"

/- parseFloat / new Date(·) on the text content of number and date elements,
   modeled on the decimal texts this encoder emits (fractional, exotic and
   non-numeric inputs are outside the Value model; NaN is not modeled). -/
def jsParseFloat (s : String) : Int := (parseDecInt s).getD 0

def jsDateOf (s : String) : Int := (parseDecInt s).getD 0

/- The ontext conversion, keyed by the innermost open element's TAG name;
   tags outside the four scalar tags leave value undefined (no store). -/
def convertText (tag t : String) : Option Value :=
  if tag = "date" then some (.date (jsDateOf t))
  else if tag = "number" then some (.num (jsParseFloat t))
  else if tag = "string" then some (.str t)
  else if tag = "boolean" then some (.bool (t == "true"))
  else none

/- One sax callback, as handled by Parse.  The JS handlers mutate a heap:
   `current` references the container being filled; a container open saves the
   parent reference in node.parentObject and stores a fresh container under the
   node's name; its close restores current to the saved parent.  A self-closing
   node gets dataType "null" and NO parentObject, so its close sets the JS
   variable `current` to undefined even though the container it referenced
   stays alive in the heap (still referenced by its parent).  That situation is
   modeled by keeping the live container's contents in `current` while raising
   the `dead` flag; a store attempted while dead is the TypeError the JS code
   would hit writing a property of undefined.  Since the parent references the
   open container throughout, restoring on close is modeled by inserting the
   finished container into the saved parent contents under the node's name. -/
def step (st : PState) (e : Event) : Except PErr PState :=
  match e with
  | .openTag tag attrs sc =>
    let key := nameOf attrs
    let rk := st.rootKey.getD key
    if sc then
      if st.dead then .error .typeErr
      else .ok { st with path := ⟨tag, key, .nullT, none⟩ :: st.path,
                         current := st.current.store key .null,
                         rootKey := some rk }
    else if basicTag tag then
      .ok { st with path := ⟨tag, key, .basic, none⟩ :: st.path, rootKey := some rk }
    else
      if st.dead then .error .typeErr
      else .ok { st with
                 path := ⟨tag, key,
                          if tag = "array" then .array else .object,
                          some st.current⟩ :: st.path,
                 current := if tag = "array" then .arr [] else .obj [],
                 rootKey := some rk }
  | .text t =>
    match st.path with
    | [] => .ok st
    | top :: _ =>
      match convertText top.tag t with
      | none => .ok st
      | some v =>
        if st.dead then .error .typeErr
        else .ok { st with current := st.current.store top.nameAttr v }
  | .close =>
    match st.path with
    | [] => .error .typeErr
    | top :: rest =>
      match top.dtype with
      | .basic => .ok { st with path := rest }
      | .nullT => .ok { st with path := rest, dead := true }
      | _ =>
        match top.parentObj with
        | some p => .ok { st with path := rest, dead := false,
                                  current := p.store top.nameAttr st.current.toValue }
        | none => .ok { st with path := rest, dead := true }
  | .err m => .ok { st with log := st.log ++ [m] }

def runEvents : List Event → PState → Except PErr PState
  | [], st => .ok st
  | e :: t, st =>
    match step st e with
    | .ok st' => runEvents t st'
    | .error er => .error er

def initState : PState := ⟨[], Cur.obj [], false, none, []⟩

structure PResult where
  value : Option Value
  log : List String
  calls : List (JKey × Value)

/- Parse: drive the handlers over the event stream, then look rootNode up in
   the outer object (for the balanced event streams a well-formed document
   yields, the final `current` is that outer object) and apply the optional
   reviver; revive(undefined) returns undefined without consulting the
   reviver.  `calls` records the (key, value) arguments the reviver was
   invoked on. -/
def ParseRun (events : List Event) (reviver : Option Reviver) (fuel : Nat) :
    Except PErr PResult :=
  match runEvents events initState with
  | .error e => .error e
  | .ok st =>
    let v? := st.current.lookupKey (st.rootKey.getD "null")
    match reviver with
    | none => .ok ⟨v?, st.log, []⟩
    | some r =>
      match v? with
      | none => .ok ⟨none, st.log, []⟩
      | some v =>
        match revive fuel r v with
        | .error e => .error e
        | .ok (v', cs) => .ok ⟨some v', st.log, cs⟩

/- ------------------------------------------------------------------ -/
/- The encoder: Stringify (src/index.js lines 146-233).                -/

def spacesOf (n : Int) : Except SErr String :=
  if n < 0 then .error .rangeErr
  else .ok (String.mk (List.replicate n.toNat ' '))

/- Lines 147-149: a numeric space becomes ' '.repeat(space) — RangeError for a
   negative count, NO clamp at 10; a string space is handed to the writer
   whole, NO truncation; absent stays absent. -/
def normalizeSpace : Option (Int ⊕ String) → Except SErr (Option String)
  | none => .ok none
  | some (.inl n) => (spacesOf n).map some
  | some (.inr s) => .ok (some s)

/- Lines 151-163: an array replacer becomes an allow-list function; since
   keys.indexOf uses strict equality, a numeric array index never matches a
   string allow-list entry, so array entries are dropped by a string
   allow-list; absent replacer becomes the identity. -/
def mkReplacer : Option (List String ⊕ Replacer) → Replacer
  | some (.inl keys) => fun k v =>
      match k with
      | .idx _ => none
      | .prop s => if keys.contains s then some v else none
  | some (.inr f) => f
  | none => fun _ v => some v

/- The produced document: the writer's indent setting plus the root element
   (the prologue/epilogue are constant).  The root element gets NO name
   attribute: line 227 calls startElement(getTagname(value)) and recurses
   without any writeAttribute. -/
structure Doc where
  indent : Option String
  root : XTree

def Stringify (fuel : Nat) (v : Value) (replacer : Option (List String ⊕ Replacer))
    (space : Option (Int ⊕ String)) : Except SErr (Doc × List (JKey × Value)) :=
  match normalizeSpace space with
  | .error e => .error e
  | .ok ind =>
    match clone fuel (mkReplacer replacer) v with
    | .error e => .error e
    | .ok (w, cs) =>
      .ok (⟨ind, .elem (getTagname w) [] (stringifyText w) (stringifyChildren w)⟩, cs)

/- decode(encode(v)): serialize with neither replacer nor space and feed the
   document's sax events to the parse handlers, with no reviver. -/
def encodeDecode (fuel : Nat) (v : Value) : Option (Option Value) :=
  match Stringify fuel v none none with
  | .error _ => none
  | .ok (doc, _) =>
    match ParseRun (treeEvents doc.root) none 0 with
    | .error _ => none
    | .ok res => some res.value

/- ------------------------------------------------------------------ -/
/- Well-formedness classes used by the round-trip statements.          -/

def nodupKeys : List String → Bool
  | [] => true
  | k :: t => !(t.contains k) && nodupKeys t

mutual
/- Values whose encoding round-trips structurally: no functions, no nulls, no
   empty strings, every array and object non-empty, object keys distinct.
   (Null and empty containers encode as self-closing elements, which decode to
   null — and derail the decoder's `current` restoration when followed by a
   sibling; empty strings fire no text event, so their key is never set.) -/
def goodVal : Value → Bool
  | .null => false
  | .bool _ => true
  | .num _ => true
  | .str s => s != ""
  | .date _ => true
  | .arr xs => !xs.isEmpty && goodElems xs
  | .obj fs => !fs.isEmpty && nodupKeys (fs.map Prod.fst) && goodFields fs
  | .func => false

def goodElems : List Value → Bool
  | [] => true
  | x :: t => goodVal x && goodElems t

def goodFields : List (String × Value) → Bool
  | [] => true
  | (_, x) :: t => goodVal x && goodFields t
end

/- Scalar values of the four basic tags (with a non-empty string body). -/
def basicVal : Value → Bool
  | .bool _ => true
  | .num _ => true
  | .date _ => true
  | .str s => s != ""
  | _ => false

mutual
/- Nesting depth of a value, the fuel needed by the clone/revive embeddings
   (they spend one unit per recursion level). -/
def depthV : Value → Nat
  | .arr xs => depthElems xs + 1
  | .obj fs => depthFields fs + 1
  | _ => 1

def depthElems : List Value → Nat
  | [] => 0
  | x :: t => max (depthV x) (depthElems t)

def depthFields : List (String × Value) → Nat
  | [] => 0
  | (_, x) :: t => max (depthV x) (depthFields t)
end

def Event.isErr : Event → Bool
  | .err _ => true
  | _ => false

def errMsgs (es : List Event) : List String :=
  es.filterMap fun e =>
    match e with
    | .err m => some m
    | _ => none

/- encode then decode with an optional reviver: serialize with neither
   replacer nor space and run the parse handlers with the given reviver over
   the document's events. -/
def stringifyParse (fuel : Nat) (r : Option Reviver) (v : Value) :
    Except PErr PResult :=
  match Stringify fuel v none none with
  | .error _ => .error .outOfFuel
  | .ok (doc, _) => ParseRun (treeEvents doc.root) r fuel

/- The reviver of the array-compaction scenario: drop index 1, keep all else. -/
def dropIdx1 : Reviver := fun k v => .ok (if k = JKey.idx 1 then none else some v)

/- A reviver returning the omitted sentinel for every entry. -/
def dropAllRev : Reviver := fun _ _ => .ok none

/- A reviver that throws on every entry. -/
def throwRev (e : String) : Reviver := fun _ _ => .error e

/- A replacer returning the omitted sentinel for every entry. -/
def dropAllRep : Replacer := fun _ _ => none

/- What clone with the drop-everything replacer leaves of a value: scalars
   survive untouched (the replacer is never consulted for the value itself),
   containers are emptied, null becomes the empty object (typeof null quirk). -/
def hollow : Value → Value
  | .arr _ => .arr []
  | .obj _ => .obj []
  | .null => .obj []
  | v => v

def topEntriesElems : Nat → List Value → List (JKey × Value)
  | _, [] => []
  | n, x :: t => (JKey.idx n, x) :: topEntriesElems (n + 1) t

def topEntriesFields : List (String × Value) → List (JKey × Value)
  | [] => []
  | (k, x) :: t => (JKey.prop k, x) :: topEntriesFields t

/- The immediate (key, value) entries of a container value. -/
def topEntries : Value → List (JKey × Value)
  | .arr xs => topEntriesElems 0 xs
  | .obj fs => topEntriesFields fs
  | _ => []

mutual
def hasFunc : Value → Bool
  | .func => true
  | .arr xs => hasFuncElems xs
  | .obj fs => hasFuncFields fs
  | _ => false

def hasFuncElems : List Value → Bool
  | [] => false
  | x :: t => hasFunc x || hasFuncElems t

def hasFuncFields : List (String × Value) → Bool
  | [] => false
  | (_, x) :: t => hasFunc x || hasFuncFields t
end

mutual
/- No element strictly below this one is tagged "function". -/
def funcFreeBelow : XTree → Bool
  | .elem _ _ _ cs => funcFreeList cs

def funcFreeList : List XTree → Bool
  | [] => true
  | c :: t => (c.tagOf != "function") && funcFreeBelow c && funcFreeList t
end

mutual
/- Every element strictly below this one carries a name attribute. -/
def namedBelow : XTree → Bool
  | .elem _ _ _ cs => namedList cs

def namedList : List XTree → Bool
  | [] => true
  | c :: t => (lookupAttr c.attrsOf "name").isSome && namedBelow c && namedList t
end

mutual
/- Every element strictly below this one carries a name attribute drawn from
   the allow-list ks. -/
def allowedBelow : List String → XTree → Bool
  | ks, .elem _ _ _ cs => allowedList ks cs

def allowedList : List String → List XTree → Bool
  | _, [] => true
  | ks, c :: t =>
    (match lookupAttr c.attrsOf "name" with
     | some s => ks.contains s
     | none => false) && allowedBelow ks c && allowedList ks t
end

mutual
/- The shape the allow-list clone leaves: arrays emptied (numeric keys never
   match a string allow-list), object keys all drawn from ks. -/
def allowClean : List String → Value → Bool
  | _, .arr xs => xs.isEmpty
  | ks, .obj fs => allowFields ks fs
  | _, _ => true

def allowFields : List String → List (String × Value) → Bool
  | _, [] => true
  | ks, (k, x) :: t => ks.contains k && allowClean ks x && allowFields ks t
end

/- ------------------------------------------------------------------ -/
/- Decimal codec correctness.                                          -/

theorem parseDecCore_append (l1 l2 : List Char) (acc : Nat) :
    parseDecCore (l1 ++ l2) acc =
      match parseDecCore l1 acc with
      | none => none
      | some a => parseDecCore l2 a := by
  induction l1 generalizing acc with
  | nil => simp [parseDecCore]
  | cons c t ih =>
    by_cases hc : isDigitCh c
    · simp [parseDecCore, hc, ih]
    · simp [parseDecCore, hc]

theorem digitChar_props (d : Nat) (h : d < 10) :
    isDigitCh (digitChar d) = true ∧ (digitChar d).toNat = 48 + d := by
  interval_cases d <;> exact ⟨by decide, by decide⟩

theorem digitChar_ge (fuel : Nat) :
    ∀ n c, c ∈ decDigitsAux fuel n → 48 ≤ c.toNat := by
  induction fuel with
  | zero => intro n c hc; simp [decDigitsAux] at hc
  | succ f ih =>
    intro n c hc
    by_cases hn : n = 0
    · simp [decDigitsAux, hn] at hc
    · simp only [decDigitsAux, if_neg hn, List.mem_cons] at hc
      rcases hc with hc | hc
      · subst hc
        exact ((digitChar_props _ (Nat.mod_lt _ (by norm_num))).2 ▸ by omega)
      · exact ih _ _ hc

theorem parseDecCore_decDigits (fuel : Nat) : ∀ n acc, n ≤ fuel →
    parseDecCore ((decDigitsAux fuel n).reverse) acc =
      some (acc * 10 ^ (decDigitsAux fuel n).length + n) := by
  induction fuel with
  | zero =>
    intro n acc h
    interval_cases n
    simp [decDigitsAux, parseDecCore]
  | succ f ih =>
    intro n acc h
    by_cases hn : n = 0
    · subst hn; simp [decDigitsAux, parseDecCore]
    · have hpos : 0 < n := Nat.pos_of_ne_zero hn
      have hdiv : n / 10 < n := Nat.div_lt_self hpos (by norm_num)
      have hrec : n / 10 ≤ f := by omega
      have h10 : n % 10 < 10 := Nat.mod_lt _ (by norm_num)
      obtain ⟨hd1, hd2⟩ := digitChar_props (n % 10) h10
      simp only [decDigitsAux, if_neg hn, List.reverse_cons, parseDecCore_append,
                 ih (n / 10) acc hrec, List.length_cons]
      simp only [parseDecCore, hd1, if_pos, hd2, Option.some.injEq]
      rw [pow_succ, Nat.add_sub_cancel_left, Nat.add_mul, ← Nat.mul_assoc]
      omega

theorem decStr_data_ne_nil (n : Nat) : (decStr n).data ≠ [] := by
  by_cases hn : n = 0
  · subst hn; decide
  · cases n with
    | zero => exact absurd rfl hn
    | succ m => simp [decStr, hn, decDigitsAux]

theorem parseDecNat_decStr (n : Nat) : parseDecNat (decStr n) = some n := by
  by_cases hn : n = 0
  · subst hn; decide
  · have hcore : parseDecCore ((decDigitsAux n n).reverse) 0 =
        some (0 * 10 ^ (decDigitsAux n n).length + n) :=
      parseDecCore_decDigits n n 0 le_rfl
    rw [Nat.zero_mul, Nat.zero_add] at hcore
    have hdata : (decStr n).data = (decDigitsAux n n).reverse := by
      simp [decStr, hn]
    cases hrev : (decDigitsAux n n).reverse with
    | nil => exact absurd (hdata.trans hrev) (decStr_data_ne_nil n)
    | cons c t =>
      rw [hrev] at hcore
      unfold parseDecNat
      rw [hdata, hrev]
      exact hcore

theorem parseDecCore_data_decStr (n : Nat) :
    parseDecCore (decStr n).data 0 = some n := by
  have h := parseDecNat_decStr n
  unfold parseDecNat at h
  cases hd : (decStr n).data with
  | nil => exact absurd hd (decStr_data_ne_nil n)
  | cons c t => rw [hd] at h; exact h

theorem decStr_head_digit (n : Nat) :
    ∀ c t, (decStr n).data = c :: t → 48 ≤ c.toNat := by
  intro c t h
  by_cases hn : n = 0
  · subst hn
    have h0 : (decStr 0).data = ['0'] := by decide
    have hc : c = '0' := by
      have h1 := h0.symm.trans h
      injection h1 with h1 _
      exact h1.symm
    subst hc; decide
  · have hdata : (decStr n).data = (decDigitsAux n n).reverse := by
      simp [decStr, hn]
    rw [hdata] at h
    have hc : c ∈ (decDigitsAux n n).reverse := h ▸ List.mem_cons_self c t
    exact digitChar_ge n n c (List.mem_reverse.mp hc)

theorem parseDecInt_decStrInt (i : Int) : parseDecInt (decStrInt i) = some i := by
  cases i with
  | ofNat n =>
    show parseDecInt (decStr n) = some (n : Int)
    have hcore := parseDecCore_data_decStr n
    cases hd : (decStr n).data with
    | nil => exact absurd hd (decStr_data_ne_nil n)
    | cons c t =>
      have hdig := decStr_head_digit n c t hd
      have hcm : ¬(c = '-') := by
        intro hc; subst hc; revert hdig; decide
      rw [hd] at hcore
      unfold parseDecInt
      rw [hd]
      simp [hcm, hcore]
  | negSucc m =>
    show parseDecInt ("-" ++ decStr (m + 1)) = some (Int.negSucc m)
    have hcore := parseDecCore_data_decStr (m + 1)
    have hdata : ("-" ++ decStr (m + 1)).data = '-' :: (decStr (m + 1)).data := by
      have : ("-" ++ decStr (m + 1)).data = "-".data ++ (decStr (m + 1)).data :=
        String.data_append ..
      rw [this]; rfl
    unfold parseDecInt
    rw [hdata]
    simp [hcore, Int.negSucc_eq]

theorem decStr_ne_empty (n : Nat) : decStr n ≠ "" := by
  intro h
  exact decStr_data_ne_nil n (by rw [h])

theorem decStrInt_ne_empty (i : Int) : decStrInt i ≠ "" := by
  cases i with
  | ofNat n => exact decStr_ne_empty n
  | negSucc m =>
    intro h
    have h' : ("-" ++ decStr (m + 1) : String) = "" := h
    have hd : ("-" ++ decStr (m + 1)).data = '-' :: (decStr (m + 1)).data := by
      have : ("-" ++ decStr (m + 1)).data = "-".data ++ (decStr (m + 1)).data :=
        String.data_append ..
      rw [this]; rfl
    rw [h'] at hd
    exact absurd hd.symm (by simp [String.data])

/- ------------------------------------------------------------------ -/
/- Bookkeeping lemmas.                                                 -/

theorem sizeOf_mem_arr {x : Value} {xs : List Value} (h : x ∈ xs) :
    sizeOf x < sizeOf (Value.arr xs) := by
  have h1 := List.sizeOf_lt_of_mem h
  simp only [Value.arr.sizeOf_spec]
  omega

theorem sizeOf_mem_obj {k : String} {x : Value} {fs : List (String × Value)}
    (h : (k, x) ∈ fs) : sizeOf x < sizeOf (Value.obj fs) := by
  have h1 := List.sizeOf_lt_of_mem h
  have h2 : sizeOf x < sizeOf (k, x) := by
    simp only [Prod.mk.sizeOf_spec]
    omega
  simp only [Value.obj.sizeOf_spec]
  omega

theorem depth_mem_elems {x : Value} {xs : List Value} (h : x ∈ xs) :
    depthV x ≤ depthElems xs := by
  induction xs with
  | nil => simp at h
  | cons a t ih =>
    rcases List.mem_cons.mp h with rfl | h'
    · simp [depthElems]
    · have := ih h'
      simp [depthElems]
      omega

theorem depth_mem_fields {k : String} {x : Value} {fs : List (String × Value)}
    (h : (k, x) ∈ fs) : depthV x ≤ depthFields fs := by
  induction fs with
  | nil => simp at h
  | cons a t ih =>
    obtain ⟨k', x'⟩ := a
    rcases List.mem_cons.mp h with heq | h'
    · obtain ⟨rfl, rfl⟩ := Prod.mk.injEq .. ▸ heq
      simp [depthFields]
    · have := ih h'
      simp [depthFields]
      omega

theorem runEvents_append (l1 l2 : List Event) (st : PState) :
    runEvents (l1 ++ l2) st =
      match runEvents l1 st with
      | .error e => .error e
      | .ok st' => runEvents l2 st' := by
  induction l1 generalizing st with
  | nil => simp [runEvents]
  | cons e t ih =>
    simp only [List.cons_append, runEvents]
    cases step st e with
    | error er => rfl
    | ok st' => exact ih st'

theorem setKey_append (fs : List (String × Value)) (k : String) (v : Value)
    (h : ∀ p ∈ fs, p.1 ≠ k) : setKey fs k v = fs ++ [(k, v)] := by
  induction fs with
  | nil => rfl
  | cons p t ih =>
    obtain ⟨k', v'⟩ := p
    have hk : ¬(k' = k) := h (k', v') (List.mem_cons_self ..)
    simp [setKey, hk, ih fun q hq => h q (List.mem_cons_of_mem _ hq)]

theorem store_arr_snoc (xs : List Value) (v : Value) :
    Cur.store (.arr xs) (decStr xs.length) v = .arr (xs ++ [v]) := by
  simp [Cur.store, setIdx, parseDecNat_decStr]

theorem store_obj_fresh (fs : List (String × Value)) (k : String) (v : Value)
    (h : ∀ p ∈ fs, p.1 ≠ k) :
    Cur.store (.obj fs) k v = .obj (fs ++ [(k, v)]) := by
  simp [Cur.store, setKey_append fs k v h]

theorem nodupKeys_head_fresh (l1 : List String) (k : String) (l2 : List String)
    (h : nodupKeys (l1 ++ k :: l2) = true) : ∀ s ∈ l1, s ≠ k := by
  induction l1 with
  | nil => intro s hs; simp at hs
  | cons a t ih =>
    intro s hs
    simp only [List.cons_append, nodupKeys, Bool.and_eq_true,
               Bool.not_eq_true'] at h
    rcases List.mem_cons.mp hs with rfl | hs'
    · intro hk
      subst hk
      have hcont : (t.append (s :: l2)).contains s = true := by simp [List.append_eq]
      rw [hcont] at h
      exact absurd h.1 (by simp)
    · exact ih h.2 s hs'

theorem goodVal_not_func {v : Value} (h : goodVal v = true) : v.isFunc = false := by
  cases v <;> simp_all [goodVal, Value.isFunc]

theorem goodElems_mem {xs : List Value} (h : goodElems xs = true) :
    ∀ x ∈ xs, goodVal x = true := by
  induction xs with
  | nil => intro x hx; simp at hx
  | cons a t ih =>
    intro x hx
    simp only [goodElems, Bool.and_eq_true] at h
    rcases List.mem_cons.mp hx with rfl | hx'
    · exact h.1
    · exact ih h.2 x hx'

theorem goodFields_mem {fs : List (String × Value)} (h : goodFields fs = true) :
    ∀ p ∈ fs, goodVal p.2 = true := by
  induction fs with
  | nil => intro p hp; simp at hp
  | cons a t ih =>
    intro p hp
    obtain ⟨k, x⟩ := a
    simp only [goodFields, Bool.and_eq_true] at h
    rcases List.mem_cons.mp hp with rfl | hp'
    · exact h.1
    · exact ih h.2 p hp'

/- ------------------------------------------------------------------ -/
/- Scalar round-trip and entry simulation.                             -/

theorem basic_text_roundtrip (v : Value) (h : basicVal v = true) :
    ∃ s, stringifyText v = some s ∧ ¬(s = "") ∧
         basicTag (getTagname v) = true ∧
         convertText (getTagname v) s = some v := by
  cases v with
  | bool b =>
    cases b with
    | false =>
      exact ⟨"false", rfl, by decide, by simp [getTagname, basicTag],
             by simp [convertText, getTagname]⟩
    | true =>
      exact ⟨"true", rfl, by decide, by simp [getTagname, basicTag],
             by simp [convertText, getTagname]⟩
  | num n =>
    refine ⟨decStrInt n, rfl, decStrInt_ne_empty n, by simp [getTagname, basicTag], ?_⟩
    simp [convertText, getTagname, jsParseFloat, parseDecInt_decStrInt]
  | date ms =>
    refine ⟨isoOf ms, rfl, decStrInt_ne_empty ms, by simp [getTagname, basicTag], ?_⟩
    simp [convertText, getTagname, jsDateOf, isoOf, parseDecInt_decStrInt]
  | str s =>
    simp only [basicVal, bne_iff_ne, ne_eq] at h
    exact ⟨s, rfl, by simpa using h, by simp [getTagname, basicTag],
           by simp [convertText, getTagname]⟩
  | null => simp [basicVal] at h
  | arr xs => simp [basicVal] at h
  | obj fs => simp [basicVal] at h
  | func => simp [basicVal] at h

theorem basic_children_nil (v : Value) (h : basicVal v = true) :
    stringifyChildren v = [] := by
  cases v with
  | bool b => simp [stringifyChildren]
  | num n => simp [stringifyChildren]
  | date ms => simp [stringifyChildren]
  | str s => simp [stringifyChildren]
  | null => simp [basicVal] at h
  | arr xs => simp [basicVal] at h
  | obj fs => simp [basicVal] at h
  | func => simp [basicVal] at h

theorem runEntry_basic (v : Value) (h : basicVal v = true) (k : String)
    (path : List PNode) (cur : Cur) (rk : String) (lg : List String) :
    runEvents (treeEvents (stringifyEntry k v)) ⟨path, cur, false, some rk, lg⟩ =
      .ok ⟨path, cur.store k v, false, some rk, lg⟩ := by
  obtain ⟨s, hs, hne, hbt, hconv⟩ := basic_text_roundtrip v h
  have hch := basic_children_nil v h
  rw [stringifyEntry, hs, hch]
  simp [treeEvents, treesEvents, hne, runEvents, step, nameOf, lookupAttr, hbt, hconv]

/- Reflecting an entry's events: running the events of the element written for
   entry (k, v) from any live state stores v under k in the current container
   and leaves everything else unchanged. -/
theorem runEntry (d : Nat) : ∀ v, sizeOf v ≤ d → goodVal v = true →
    ∀ (k : String) (path : List PNode) (cur : Cur) (rk : String) (lg : List String),
      runEvents (treeEvents (stringifyEntry k v)) ⟨path, cur, false, some rk, lg⟩ =
        .ok ⟨path, cur.store k v, false, some rk, lg⟩ := by
  induction d using Nat.strong_induction_on with
  | _ d ih =>
    intro v hsize hgood k path cur rk lg
    cases v with
    | null => simp [goodVal] at hgood
    | func => simp [goodVal] at hgood
    | bool b => exact runEntry_basic (.bool b) rfl k path cur rk lg
    | num n => exact runEntry_basic (.num n) rfl k path cur rk lg
    | date ms => exact runEntry_basic (.date ms) rfl k path cur rk lg
    | str s =>
      have hb : basicVal (.str s) = true := by simpa [goodVal, basicVal] using hgood
      exact runEntry_basic (.str s) hb k path cur rk lg
    | arr xs =>
      have hg2 : xs.isEmpty = false ∧ goodElems xs = true := by
        simpa [goodVal, Bool.and_eq_true] using hgood
      have hstep : ∀ (t : List Value), (∀ x ∈ t, x ∈ xs) → goodElems t = true →
          ∀ (acc : List Value) (p2 : List PNode) (rk2 : String) (lg2 : List String),
            runEvents (treesEvents (stringifyElems acc.length t))
                ⟨p2, .arr acc, false, some rk2, lg2⟩ =
              .ok ⟨p2, .arr (acc ++ t), false, some rk2, lg2⟩ := by
        intro t
        induction t with
        | nil =>
          intro _ _ acc p2 rk2 lg2
          simp [stringifyElems, treesEvents, runEvents]
        | cons x tl ihl =>
          intro hmem hg acc p2 rk2 lg2
          have hgx : goodVal x = true ∧ goodElems tl = true := by
            simpa [goodElems, Bool.and_eq_true] using hg
          have hnf : x.isFunc = false := goodVal_not_func hgx.1
          have hsx : sizeOf x < d :=
            lt_of_lt_of_le (sizeOf_mem_arr (hmem x (List.mem_cons_self ..))) hsize
          have hx := ih (sizeOf x) hsx x le_rfl hgx.1 (decStr acc.length)
            p2 (.arr acc) rk2 lg2
          have htl := ihl (fun y hy => hmem y (List.mem_cons_of_mem _ hy)) hgx.2
            (acc ++ [x]) p2 rk2 lg2
          simp only [stringifyElems, hnf, Bool.false_eq_true, if_false,
                     treesEvents, runEvents_append, hx, store_arr_snoc]
          simpa [List.append_assoc] using htl

      obtain ⟨x0, xt, rfl⟩ : ∃ x0 xt, xs = x0 :: xt := by
        cases xs with
        | nil => simp at hg2
        | cons a t => exact ⟨a, t, rfl⟩
      have hx0g : goodVal x0 = true := goodElems_mem hg2.2 x0 (List.mem_cons_self ..)
      have hnf0 : x0.isFunc = false := goodVal_not_func hx0g
      have hevents : treeEvents (stringifyEntry k (Value.arr (x0 :: xt))) =
          .openTag "array" [("name", k)] false ::
            (treesEvents (stringifyElems 0 (x0 :: xt)) ++ [.close]) := by
        simp [stringifyEntry, stringifyText, stringifyChildren, stringifyElems,
              hnf0, treeEvents, treesEvents, getTagname]
      rw [hevents]
      have hopen : step ⟨path, cur, false, some rk, lg⟩
          (.openTag "array" [("name", k)] false) =
          .ok ⟨⟨"array", k, .array, some cur⟩ :: path, .arr [], false, some rk, lg⟩ := by
        simp [step, nameOf, lookupAttr, basicTag]
      simp only [runEvents, hopen, runEvents_append]
      have hlist := hstep (x0 :: xt) (fun y hy => hy) hg2.2 []
        (⟨"array", k, .array, some cur⟩ :: path) rk lg
      simp only [List.length_nil] at hlist
      rw [hlist]
      simp [runEvents, step, Cur.toValue]
    | obj fs =>
      have hg2 : (fs.isEmpty = false ∧ nodupKeys (fs.map Prod.fst) = true) ∧
          goodFields fs = true := by
        simpa [goodVal, Bool.and_eq_true] using hgood
      have hstep : ∀ (t : List (String × Value)), (∀ p ∈ t, p ∈ fs) →
          goodFields t = true →
          ∀ (acc : List (String × Value)),
            nodupKeys (acc.map Prod.fst ++ t.map Prod.fst) = true →
            ∀ (p2 : List PNode) (rk2 : String) (lg2 : List String),
              runEvents (treesEvents (stringifyFields t))
                  ⟨p2, .obj acc, false, some rk2, lg2⟩ =
                .ok ⟨p2, .obj (acc ++ t), false, some rk2, lg2⟩ := by
        intro t
        induction t with
        | nil =>
          intro _ _ acc _ p2 rk2 lg2
          simp [stringifyFields, treesEvents, runEvents]
        | cons p tl ihl =>
          intro hmem hg acc hnd p2 rk2 lg2
          obtain ⟨k', x⟩ := p
          have hgx : goodVal x = true ∧ goodFields tl = true := by
            simpa [goodFields, Bool.and_eq_true] using hg
          have hnf : x.isFunc = false := goodVal_not_func hgx.1
          have hsx : sizeOf x < d :=
            lt_of_lt_of_le (sizeOf_mem_obj (hmem (k', x) (List.mem_cons_self ..))) hsize
          have hx := ih (sizeOf x) hsx x le_rfl hgx.1 k' p2 (.obj acc) rk2 lg2
          have hfresh : ∀ q ∈ acc, q.1 ≠ k' := by
            intro q hq
            have hq1 : q.1 ∈ acc.map Prod.fst := List.mem_map_of_mem _ hq
            have := nodupKeys_head_fresh (acc.map Prod.fst) k' (tl.map Prod.fst)
              (by simpa using hnd)
            exact this q.1 hq1
          have hstore := store_obj_fresh acc k' x hfresh
          have hnd' : nodupKeys ((acc ++ [(k', x)]).map Prod.fst ++ tl.map Prod.fst)
              = true := by
            simpa [List.append_assoc] using hnd
          have htl := ihl (fun q hq => hmem q (List.mem_cons_of_mem _ hq)) hgx.2
            (acc ++ [(k', x)]) hnd' p2 rk2 lg2
          simp only [stringifyFields, hnf, Bool.false_eq_true, if_false,
                     treesEvents, runEvents_append, hx, hstore]
          simpa [List.append_assoc] using htl
      obtain ⟨q0, ft, rfl⟩ : ∃ q0 ft, fs = q0 :: ft := by
        cases fs with
        | nil => simp at hg2
        | cons a t => exact ⟨a, t, rfl⟩
      obtain ⟨k0, x0⟩ := q0
      have hx0g : goodVal x0 = true :=
        goodFields_mem hg2.2 (k0, x0) (List.mem_cons_self ..)
      have hnf0 : x0.isFunc = false := goodVal_not_func hx0g
      have hevents : treeEvents (stringifyEntry k (Value.obj ((k0, x0) :: ft))) =
          .openTag "object" [("name", k)] false ::
            (treesEvents (stringifyFields ((k0, x0) :: ft)) ++ [.close]) := by
        simp [stringifyEntry, stringifyText, stringifyChildren, stringifyFields,
              hnf0, treeEvents, treesEvents, getTagname]
      rw [hevents]
      have hopen : step ⟨path, cur, false, some rk, lg⟩
          (.openTag "object" [("name", k)] false) =
          .ok ⟨⟨"object", k, .object, some cur⟩ :: path, .obj [], false, some rk, lg⟩ := by
        simp [step, nameOf, lookupAttr, basicTag]
      simp only [runEvents, hopen, runEvents_append]
      have hlist := hstep ((k0, x0) :: ft) (fun q hq => hq) hg2.2 []
        (by simpa using hg2.1.2)
        (⟨"object", k, .object, some cur⟩ :: path) rk lg
      rw [hlist]
      simp [runEvents, step, Cur.toValue]

theorem runElems_all : ∀ (xs : List Value), goodElems xs = true →
    ∀ (acc : List Value) (p2 : List PNode) (rk2 : String) (lg2 : List String),
      runEvents (treesEvents (stringifyElems acc.length xs))
          ⟨p2, .arr acc, false, some rk2, lg2⟩ =
        .ok ⟨p2, .arr (acc ++ xs), false, some rk2, lg2⟩ := by
  intro xs
  induction xs with
  | nil =>
    intro _ acc p2 rk2 lg2
    simp [stringifyElems, treesEvents, runEvents]
  | cons x tl ihl =>
    intro hg acc p2 rk2 lg2
    have hgx : goodVal x = true ∧ goodElems tl = true := by
      simpa [goodElems, Bool.and_eq_true] using hg
    have hnf : x.isFunc = false := goodVal_not_func hgx.1
    have hx := runEntry (sizeOf x) x le_rfl hgx.1 (decStr acc.length)
      p2 (.arr acc) rk2 lg2
    have htl := ihl hgx.2 (acc ++ [x]) p2 rk2 lg2
    simp only [stringifyElems, hnf, Bool.false_eq_true, if_false,
               treesEvents, runEvents_append, hx, store_arr_snoc]
    simpa [List.append_assoc] using htl

theorem runFields_all : ∀ (fs : List (String × Value)), goodFields fs = true →
    ∀ (acc : List (String × Value)),
      nodupKeys (acc.map Prod.fst ++ fs.map Prod.fst) = true →
      ∀ (p2 : List PNode) (rk2 : String) (lg2 : List String),
        runEvents (treesEvents (stringifyFields fs))
            ⟨p2, .obj acc, false, some rk2, lg2⟩ =
          .ok ⟨p2, .obj (acc ++ fs), false, some rk2, lg2⟩ := by
  intro fs
  induction fs with
  | nil =>
    intro _ acc _ p2 rk2 lg2
    simp [stringifyFields, treesEvents, runEvents]
  | cons p tl ihl =>
    intro hg acc hnd p2 rk2 lg2
    obtain ⟨k', x⟩ := p
    have hgx : goodVal x = true ∧ goodFields tl = true := by
      simpa [goodFields, Bool.and_eq_true] using hg
    have hnf : x.isFunc = false := goodVal_not_func hgx.1
    have hx := runEntry (sizeOf x) x le_rfl hgx.1 k' p2 (.obj acc) rk2 lg2
    have hfresh : ∀ q ∈ acc, q.1 ≠ k' := by
      intro q hq
      have hq1 : q.1 ∈ acc.map Prod.fst := List.mem_map_of_mem _ hq
      exact nodupKeys_head_fresh (acc.map Prod.fst) k' (tl.map Prod.fst)
        (by simpa using hnd) q.1 hq1
    have hstore := store_obj_fresh acc k' x hfresh
    have hnd' : nodupKeys ((acc ++ [(k', x)]).map Prod.fst ++ tl.map Prod.fst)
        = true := by
      simpa [List.append_assoc] using hnd
    have htl := ihl hgx.2 (acc ++ [(k', x)]) hnd' p2 rk2 lg2
    simp only [stringifyFields, hnf, Bool.false_eq_true, if_false,
               treesEvents, runEvents_append, hx, hstore]
    simpa [List.append_assoc] using htl

/- The root element written by Stringify carries no name attribute, so the
   decoder's rootNode and store key are both the "undefined" coercion; running
   the whole document's events from the initial state leaves the decoded value
   stored under "undefined" in the outer object. -/
theorem runRoot (v : Value) (hg : goodVal v = true) :
    runEvents
        (treeEvents (.elem (getTagname v) [] (stringifyText v) (stringifyChildren v)))
        initState =
      .ok ⟨[], Cur.obj [("undefined", v)], false, some "undefined", []⟩ := by
  have hbasic : basicVal v = true →
      runEvents
          (treeEvents (.elem (getTagname v) [] (stringifyText v) (stringifyChildren v)))
          initState =
        .ok ⟨[], Cur.obj [("undefined", v)], false, some "undefined", []⟩ := by
    intro hb
    obtain ⟨s, hs, hne, hbt, hconv⟩ := basic_text_roundtrip v hb
    have hch := basic_children_nil v hb
    rw [hs, hch]
    simp [treeEvents, treesEvents, hne, runEvents, step, initState, nameOf,
          lookupAttr, hbt, hconv, Cur.store, setKey]
  cases v with
  | null => simp [goodVal] at hg
  | func => simp [goodVal] at hg
  | bool b => exact hbasic rfl
  | num n => exact hbasic rfl
  | date ms => exact hbasic rfl
  | str s => exact hbasic (by simpa [goodVal, basicVal] using hg)
  | arr xs =>
    have hg2 : xs.isEmpty = false ∧ goodElems xs = true := by
      simpa [goodVal, Bool.and_eq_true] using hg
    obtain ⟨x0, xt, rfl⟩ : ∃ x0 xt, xs = x0 :: xt := by
      cases xs with
      | nil => simp at hg2
      | cons a t => exact ⟨a, t, rfl⟩
    have hx0g : goodVal x0 = true := goodElems_mem hg2.2 x0 (List.mem_cons_self ..)
    have hnf0 : x0.isFunc = false := goodVal_not_func hx0g
    have hevents : treeEvents (.elem (getTagname (Value.arr (x0 :: xt))) []
        (stringifyText (Value.arr (x0 :: xt)))
        (stringifyChildren (Value.arr (x0 :: xt)))) =
        .openTag "array" [] false ::
          (treesEvents (stringifyElems 0 (x0 :: xt)) ++ [.close]) := by
      simp [stringifyText, stringifyChildren, stringifyElems,
            hnf0, treeEvents, treesEvents, getTagname]
    rw [hevents]
    have hopen : step initState (.openTag "array" [] false) =
        .ok ⟨[⟨"array", "undefined", .array, some (.obj [])⟩], .arr [], false,
             some "undefined", []⟩ := by
      simp [step, initState, nameOf, lookupAttr, basicTag]
    simp only [runEvents, hopen, runEvents_append]
    have hlist := runElems_all (x0 :: xt) hg2.2 []
      [⟨"array", "undefined", .array, some (.obj [])⟩] "undefined" []
    simp only [List.length_nil] at hlist
    rw [hlist]
    simp [runEvents, step, Cur.toValue, Cur.store, setKey]
  | obj fs =>
    have hg2 : (fs.isEmpty = false ∧ nodupKeys (fs.map Prod.fst) = true) ∧
        goodFields fs = true := by
      simpa [goodVal, Bool.and_eq_true] using hg
    obtain ⟨q0, ft, rfl⟩ : ∃ q0 ft, fs = q0 :: ft := by
      cases fs with
      | nil => simp at hg2
      | cons a t => exact ⟨a, t, rfl⟩
    obtain ⟨k0, x0⟩ := q0
    have hx0g : goodVal x0 = true :=
      goodFields_mem hg2.2 (k0, x0) (List.mem_cons_self ..)
    have hnf0 : x0.isFunc = false := goodVal_not_func hx0g
    have hevents : treeEvents (.elem (getTagname (Value.obj ((k0, x0) :: ft))) []
        (stringifyText (Value.obj ((k0, x0) :: ft)))
        (stringifyChildren (Value.obj ((k0, x0) :: ft)))) =
        .openTag "object" [] false ::
          (treesEvents (stringifyFields ((k0, x0) :: ft)) ++ [.close]) := by
      simp [stringifyText, stringifyChildren, stringifyFields,
            hnf0, treeEvents, treesEvents, getTagname]
    rw [hevents]
    have hopen : step initState (.openTag "object" [] false) =
        .ok ⟨[⟨"object", "undefined", .object, some (.obj [])⟩], .obj [], false,
             some "undefined", []⟩ := by
      simp [step, initState, nameOf, lookupAttr, basicTag]
    simp only [runEvents, hopen, runEvents_append]
    have hlist := runFields_all ((k0, x0) :: ft) hg2.2 []
      (by simpa using hg2.1.2)
      [⟨"object", "undefined", .object, some (.obj [])⟩] "undefined" []
    rw [hlist]
    simp [runEvents, step, Cur.toValue, Cur.store, setKey]

/- The default replacer (identity) clones a good value to itself. -/
theorem clone_id : ∀ (fuel : Nat) (v : Value), depthV v ≤ fuel →
    goodVal v = true →
    ∃ cs, clone fuel (mkReplacer none) v = .ok (v, cs) := by
  intro fuel
  induction fuel with
  | zero =>
    intro v hsz _
    exfalso
    cases v <;> simp [depthV] at hsz
  | succ f ihf =>
    intro v hsz hgood
    cases v with
    | null => simp [goodVal] at hgood
    | func => simp [goodVal] at hgood
    | bool b => exact ⟨[], rfl⟩
    | num n => exact ⟨[], rfl⟩
    | date ms => exact ⟨[], rfl⟩
    | str s => exact ⟨[], rfl⟩
    | arr xs =>
      have hg2 : goodElems xs = true := by
        have := (by simpa [goodVal, Bool.and_eq_true] using hgood :
          xs.isEmpty = false ∧ goodElems xs = true)
        exact this.2
      have hinner : ∀ (t : List Value), (∀ x ∈ t, x ∈ xs) → goodElems t = true →
          ∀ n, ∃ cs, cloneElems (clone f (mkReplacer none)) (mkReplacer none) n t =
            .ok (t, cs) := by
        intro t
        induction t with
        | nil => exact fun _ _ n => ⟨[], rfl⟩
        | cons x tl ihl =>
          intro hmem hg n
          have hgx : goodVal x = true ∧ goodElems tl = true := by
            simpa [goodElems, Bool.and_eq_true] using hg
          have hsx : depthV x ≤ f := by
            have h1 := depth_mem_elems (hmem x (List.mem_cons_self ..))
            have h2 : depthV (Value.arr xs) = depthElems xs + 1 := by simp [depthV]
            omega
          obtain ⟨cs1, hx⟩ := ihf x hsx hgx.1
          obtain ⟨cs2, htl⟩ := ihl (fun y hy => hmem y (List.mem_cons_of_mem _ hy))
            hgx.2 (n + 1)
          have hrep : mkReplacer none (JKey.idx n) x = some x := rfl
          exact ⟨(JKey.idx n, x) :: (cs1 ++ cs2), by
            simp only [cloneElems, hrep, hx, htl]⟩
      obtain ⟨cs, hcl⟩ := hinner xs (fun y hy => hy) hg2 0
      exact ⟨cs, by simp [clone, hcl]⟩
    | obj fs =>
      have hg2 : goodFields fs = true := by
        have := (by simpa [goodVal, Bool.and_eq_true] using hgood :
          (fs.isEmpty = false ∧ nodupKeys (fs.map Prod.fst) = true) ∧
            goodFields fs = true)
        exact this.2
      have hinner : ∀ (t : List (String × Value)), (∀ p ∈ t, p ∈ fs) →
          goodFields t = true →
          ∃ cs, cloneFields (clone f (mkReplacer none)) (mkReplacer none) t =
            .ok (t, cs) := by
        intro t
        induction t with
        | nil => exact fun _ _ => ⟨[], rfl⟩
        | cons p tl ihl =>
          intro hmem hg
          obtain ⟨k', x⟩ := p
          have hgx : goodVal x = true ∧ goodFields tl = true := by
            simpa [goodFields, Bool.and_eq_true] using hg
          have hsx : depthV x ≤ f := by
            have h1 := depth_mem_fields (hmem (k', x) (List.mem_cons_self ..))
            have h2 : depthV (Value.obj fs) = depthFields fs + 1 := by simp [depthV]
            omega
          obtain ⟨cs1, hx⟩ := ihf x hsx hgx.1
          obtain ⟨cs2, htl⟩ := ihl (fun q hq => hmem q (List.mem_cons_of_mem _ hq))
            hgx.2
          have hrep : mkReplacer none (JKey.prop k') x = some x := rfl
          exact ⟨(JKey.prop k', x) :: (cs1 ++ cs2), by
            simp only [cloneFields, hrep, hx, htl]⟩
      obtain ⟨cs, hcl⟩ := hinner fs (fun q hq => hq) hg2
      exact ⟨cs, by simp [clone, hcl]⟩

/- Round trip on the good class. -/
theorem roundTrip_good (fuel : Nat) (v : Value) (hsz : depthV v ≤ fuel)
    (hg : goodVal v = true) : encodeDecode fuel v = some (some v) := by
  obtain ⟨cs, hc⟩ := clone_id fuel v hsz hg
  have hroot := runRoot v hg
  simp only [encodeDecode, Stringify, normalizeSpace]
  rw [hc]
  simp only [ParseRun, hroot]
  simp [Cur.lookupKey, lookupField]

/- ------------------------------------------------------------------ -/
/- Transform-layer lemmas.                                             -/

theorem clone_basic (r : Replacer) (fuel : Nat) (v : Value)
    (h : basicVal v = true) : clone (fuel + 1) r v = .ok (v, []) := by
  cases v with
  | bool b => rfl
  | num n => rfl
  | date ms => rfl
  | str s => rfl
  | null => simp [basicVal] at h
  | arr xs => simp [basicVal] at h
  | obj fs => simp [basicVal] at h
  | func => simp [basicVal] at h

theorem clone_func (r : Replacer) (fuel : Nat) :
    clone (fuel + 1) r .func = .ok (.func, []) := rfl

theorem revive_basic (r : Reviver) (fuel : Nat) (v : Value)
    (h : basicVal v = true) : revive (fuel + 1) r v = .ok (v, []) := by
  cases v with
  | bool b => rfl
  | num n => rfl
  | date ms => rfl
  | str s => rfl
  | null => simp [basicVal] at h
  | arr xs => simp [basicVal] at h
  | obj fs => simp [basicVal] at h
  | func => simp [basicVal] at h

theorem basic_good {v : Value} (h : basicVal v = true) : goodVal v = true := by
  cases v with
  | bool b => rfl
  | num n => rfl
  | date ms => rfl
  | str s => simpa [basicVal, goodVal] using h
  | null => simp [basicVal] at h
  | arr xs => simp [basicVal] at h
  | obj fs => simp [basicVal] at h
  | func => simp [basicVal] at h

/- ------------------------------------------------------------------ -/
/- Parser error events only log: the machinery for C2.                 -/

theorem step_nonerr (e : Event) (he : e.isErr = false) (p : List PNode) (c : Cur)
    (d : Bool) (rk : Option String) (lg lg' : List String) :
    step ⟨p, c, d, rk, lg⟩ e =
      (step ⟨p, c, d, rk, lg'⟩ e).map
        fun st => ⟨st.path, st.current, st.dead, st.rootKey, lg⟩ := by
  cases e with
  | err m => simp [Event.isErr] at he
  | openTag tag attrs sc =>
    simp only [step]
    split_ifs <;> rfl
  | text t =>
    cases p with
    | nil => rfl
    | cons top rest =>
      simp only [step]
      cases hct : convertText top.tag t with
      | none => rfl
      | some v => cases d <;> rfl
  | close =>
    cases p with
    | nil => rfl
    | cons top rest =>
      simp only [step]
      cases htop : top.dtype with
      | basic => rfl
      | nullT => rfl
      | array => cases hpar : top.parentObj <;> rfl
      | object => cases hpar : top.parentObj <;> rfl

theorem errMsgs_append (l1 l2 : List Event) :
    errMsgs (l1 ++ l2) = errMsgs l1 ++ errMsgs l2 := by
  simp [errMsgs]

theorem errMsgs_filter (es : List Event) :
    errMsgs (es.filter fun e => !e.isErr) = [] := by
  induction es with
  | nil => rfl
  | cons e t ih =>
    cases e <;> simp [List.filter, Event.isErr, errMsgs] at ih ⊢ <;>
      simpa [errMsgs] using ih

theorem filter_isErr_idem (es : List Event) :
    ((es.filter fun e => !e.isErr).filter fun e => !e.isErr) =
      es.filter fun e => !e.isErr := by
  simp [List.filter_filter]

/- Error events touch only the log: a run equals the run over the stream with
   error events removed, with the error messages appended to the log. -/
theorem runEvents_log (N : Nat) : ∀ (es : List Event), es.length ≤ N →
    ∀ (p : List PNode) (c : Cur) (d : Bool) (rk : Option String)
      (lg : List String),
      runEvents es ⟨p, c, d, rk, lg⟩ =
        (runEvents (es.filter fun e => !e.isErr) ⟨p, c, d, rk, []⟩).map
          fun st => ⟨st.path, st.current, st.dead, st.rootKey, lg ++ errMsgs es⟩ := by
  induction N with
  | zero =>
    intro es hlen p c d rk lg
    have : es = [] := List.length_eq_zero.mp (Nat.le_zero.mp hlen)
    subst this
    simp [runEvents, errMsgs, Except.map]
  | succ n ih =>
    intro es hlen p c d rk lg
    cases es with
    | nil => simp [runEvents, errMsgs, Except.map]
    | cons e t =>
      have hlt : t.length ≤ n := by simpa using hlen
      cases he : e.isErr with
      | true =>
        obtain ⟨m, rfl⟩ : ∃ m, e = .err m := by
          cases e <;> simp [Event.isErr] at he ⊢
        have hfilter : ((Event.err m :: t).filter fun e => !e.isErr) =
            t.filter fun e => !e.isErr := by simp [List.filter, Event.isErr]
        have hmsgs : errMsgs (Event.err m :: t) = m :: errMsgs t := by
          simp [errMsgs]
        rw [hfilter, hmsgs]
        rw [show runEvents (Event.err m :: t) ⟨p, c, d, rk, lg⟩ =
              runEvents t ⟨p, c, d, rk, lg ++ [m]⟩ from rfl]
        rw [ih t hlt p c d rk (lg ++ [m])]
        cases runEvents (t.filter fun e => !e.isErr) ⟨p, c, d, rk, []⟩ with
        | error er => rfl
        | ok st => simp
      | false =>
        have hfilter : ((e :: t).filter fun e => !e.isErr) =
            e :: t.filter fun e => !e.isErr := by
          simp [List.filter, he]
        have hmsgs : errMsgs (e :: t) = errMsgs t := by
          cases e <;> simp [Event.isErr] at he ⊢ <;> simp [errMsgs]
        rw [hfilter, hmsgs]
        show (match step ⟨p, c, d, rk, lg⟩ e with
              | .ok st' => runEvents t st'
              | .error er => .error er) = _
        rw [step_nonerr e he p c d rk lg []]
        show _ = (match step ⟨p, c, d, rk, []⟩ e with
              | .ok st' => runEvents (t.filter fun e => !e.isErr) st'
              | .error er => .error er).map _
        cases hstep : step ⟨p, c, d, rk, []⟩ e with
        | error er => rfl
        | ok st0 =>
          simp only [Except.map]
          rw [ih t hlt st0.path st0.current st0.dead st0.rootKey lg]
          have hst0 := ih (t.filter fun e => !e.isErr)
            (le_trans (List.length_filter_le _ _) hlt)
            st0.path st0.current st0.dead st0.rootKey st0.log
          rw [filter_isErr_idem, errMsgs_filter] at hst0
          rw [hst0]
          cases runEvents (t.filter fun e => !e.isErr)
              ⟨st0.path, st0.current, st0.dead, st0.rootKey, []⟩ with
          | error er => rfl
          | ok stf => simp [Except.map]

/- Lifted to Parse: the result equals that of the error-free stream, with the
   logged messages; the value and the reviver behavior are untouched. -/
theorem ParseRun_errs (es : List Event) (r : Option Reviver) (fuel : Nat) :
    ParseRun es r fuel =
      (ParseRun (es.filter fun e => !e.isErr) r fuel).map
        fun res => ⟨res.value, errMsgs es, res.calls⟩ := by
  have hrun := runEvents_log es.length es le_rfl [] (Cur.obj []) false none []
  have hself := runEvents_log (es.filter fun e => !e.isErr).length
    (es.filter fun e => !e.isErr) le_rfl [] (Cur.obj []) false none []
  rw [filter_isErr_idem, errMsgs_filter] at hself
  unfold ParseRun
  rw [show initState = ⟨[], Cur.obj [], false, none, []⟩ from rfl]
  rw [hrun, hself]
  cases hres : runEvents (es.filter fun e => !e.isErr)
      ⟨[], Cur.obj [], false, none, []⟩ with
  | error er => rfl
  | ok st =>
    simp only [Except.map, List.nil_append]
    cases r with
    | none => rfl
    | some rv =>
      cases hlook : st.current.lookupKey (st.rootKey.getD "null") with
      | none => simp [hlook]
      | some v =>
        cases hrev : revive fuel rv v with
        | error er => simp [hlook, hrev]
        | ok pr =>
          obtain ⟨v', cs⟩ := pr
          simp [hlook, hrev]

theorem depth_basic {v : Value} (h : basicVal v = true) : depthV v = 1 := by
  cases v with
  | bool b => rfl
  | num n => rfl
  | date ms => rfl
  | str s => rfl
  | null => simp [basicVal] at h
  | arr xs => simp [basicVal] at h
  | obj fs => simp [basicVal] at h
  | func => simp [basicVal] at h

/- stringify then parse of a good value: the decoded tree is v itself; an
   absent reviver returns it as is, a present reviver determines value, calls
   and errors through revive alone. -/
theorem stringifyParse_run (fuel : Nat) (v : Value) (hsz : depthV v ≤ fuel)
    (hg : goodVal v = true) (r : Option Reviver) :
    stringifyParse fuel r v =
      match r with
      | none => .ok ⟨some v, [], []⟩
      | some rv =>
        match revive fuel rv v with
        | .error e => .error e
        | .ok (v', cs) => .ok ⟨some v', [], cs⟩ := by
  obtain ⟨cs, hc⟩ := clone_id fuel v hsz hg
  have hroot := runRoot v hg
  simp only [stringifyParse, Stringify, normalizeSpace]
  rw [hc]
  simp only [ParseRun, hroot]
  cases r with
  | none => simp [Cur.lookupKey, lookupField]
  | some rv =>
    cases hrev : revive fuel rv v with
    | error er => simp [Cur.lookupKey, lookupField, hrev]
    | ok pr =>
      obtain ⟨v', cs'⟩ := pr
      simp [Cur.lookupKey, lookupField, hrev]

/- ------------------------------------------------------------------ -/
/- Claim theorems.                                                     -/

/-- C1 (amended): parse(stringify(v)) is structurally equal to v for every
value tree with no functions, no nulls, no empty strings and no empty arrays
or objects, with object keys distinct (numbers and dates modeled at integer /
millisecond precision, the claim's round-off allowance).  Outside this class
the round trip fails: see the counterexample with the empty array. -/
theorem c1_round_trip (v : Value) (fuel : Nat) (hg : goodVal v = true)
    (hsz : depthV v ≤ fuel) : encodeDecode fuel v = some (some v) :=
  roundTrip_good fuel v hsz hg

/-- C1 witness: a concrete mixed tree round-trips. -/
theorem c1_round_trip_witness :
    goodVal (.obj [("a", .num 1),
                   ("b", .arr [.bool true, .str "x"]),
                   ("d", .date 86400)]) = true ∧
    encodeDecode 9 (.obj [("a", .num 1),
                          ("b", .arr [.bool true, .str "x"]),
                          ("d", .date 86400)]) =
      some (some (.obj [("a", .num 1),
                        ("b", .arr [.bool true, .str "x"]),
                        ("d", .date 86400)])) :=
  ⟨by simp [goodVal, goodElems, goodFields, nodupKeys],
   c1_round_trip _ 9 (by simp [goodVal, goodElems, goodFields, nodupKeys])
     (by simp [depthV, depthElems, depthFields])⟩

/-- C1 counterexample: the empty array (no functions, no cycles) does not
round-trip: it encodes as a self-closing element, which decodes to null. -/
theorem c1_counterexample :
    encodeDecode 3 (.arr []) = some (some .null) ∧ Value.null ≠ Value.arr [] := by
  constructor
  · simp [encodeDecode, Stringify, normalizeSpace, clone, cloneElems, mkReplacer,
          getTagname, stringifyText, stringifyChildren, stringifyElems, treeEvents,
          ParseRun, runEvents, step, initState, nameOf, lookupAttr, basicTag,
          Cur.store, setKey, Cur.lookupKey, lookupField]
  · intro h
    cases h

/-- C2 (amended): the parser's error callback only logs: a parse over a
stream with error events returns the same value and reviver calls as over the
stream with the error events removed, with the messages logged — no ParseError
is raised and a result is still returned.  Errors thrown by a supplied reviver
do propagate to the caller unmodified. -/
theorem c2_parser_errors :
    (∀ (es : List Event) (r : Option Reviver) (fuel : Nat),
       ParseRun es r fuel =
         (ParseRun (es.filter fun e => !e.isErr) r fuel).map
           fun res => ⟨res.value, errMsgs es, res.calls⟩) ∧
    (∀ (e : String) (a : Value) (fuel : Nat), basicVal a = true →
       stringifyParse (fuel + 2) (some (throwRev e)) (.arr [a]) =
         .error (.reviverErr e)) := by
  constructor
  · exact ParseRun_errs
  · intro e a fuel ha
    have hg : goodVal (.arr [a]) = true := by
      simp [goodVal, goodElems, basic_good ha]
    have hd : depthV (.arr [a]) ≤ fuel + 2 := by
      simp [depthV, depthElems, depth_basic ha]
    rw [stringifyParse_run (fuel + 2) _ hd hg]
    show ((match revive (fuel + 2) (throwRev e) (Value.arr [a]) with
           | .error er => .error er
           | .ok (v', cs) => .ok ⟨some v', [], cs⟩) : Except PErr PResult) =
        .error (.reviverErr e)
    rw [show revive (fuel + 2) (throwRev e) (Value.arr [a]) =
          (match reviveElems (revive (fuel + 1) (throwRev e)) (throwRev e) 0 [a] with
           | .error er => .error er
           | .ok (vs, cs) => .ok (.arr vs, cs)) from rfl]
    simp [reviveElems, throwRev]

/-- C2 witness: a concrete erroring stream and a concrete throwing reviver. -/
theorem c2_parser_errors_witness :
    ParseRun [Event.err "bad token"] none 0 =
      (ParseRun ([Event.err "bad token"].filter fun e => !e.isErr) none 0).map
        (fun res => ⟨res.value, errMsgs [Event.err "bad token"], res.calls⟩) ∧
    (basicVal (.num 7) = true ∧
     stringifyParse 2 (some (throwRev "boom")) (.arr [.num 7]) =
       .error (.reviverErr "boom")) :=
  ⟨c2_parser_errors.1 [Event.err "bad token"] none 0,
   by decide, c2_parser_errors.2 "boom" (.num 7) 0 (by decide)⟩

/-- C2 counterexample: a parse whose stream contains a parser error event
returns normally, with a result value and the error merely logged — the claim
that parse raises a ParseError and returns no result is false. -/
theorem c2_counterexample :
    ParseRun [.openTag "number" [("name", "x")] false, .text "5", .close,
              .err "unexpected end"] none 0 =
      .ok ⟨some (.num 5), ["unexpected end"], []⟩ := by
  simp [ParseRun, runEvents, step, initState, nameOf, lookupAttr, basicTag,
        convertText, jsParseFloat, parseDecInt, parseDecCore, isDigitCh,
        Cur.store, setKey, Cur.lookupKey, lookupField]

/-- C5 (amended): the reviver is applied only to entries of arrays and
objects; it is never invoked with the top-level decoded value itself — parse
of a scalar document returns the scalar unchanged, with an empty reviver call
log, for every reviver. -/
theorem c5_reviver_scope (r : Reviver) (fuel : Nat) (v : Value)
    (h : basicVal v = true) :
    stringifyParse (fuel + 1) (some r) v = .ok ⟨some v, [], []⟩ := by
  rw [stringifyParse_run (fuel + 1) v (by simp [depth_basic h]) (basic_good h)]
  simp [revive_basic r fuel v h]

/-- C5 witness: the drop-everything reviver at a concrete scalar. -/
theorem c5_reviver_scope_witness :
    basicVal (.num 5) = true ∧
    stringifyParse 1 (some dropAllRev) (.num 5) = .ok ⟨some (.num 5), [], []⟩ :=
  ⟨by decide, c5_reviver_scope dropAllRev 0 (.num 5) (by decide)⟩

/-- C5 counterexample: with the reviver that returns the omitted sentinel for
every entry, parse of a number document still returns the number, and the
instrumented call log is empty — the reviver was never invoked, in particular
not as the claimed entry (rootKey, value), which this reviver would have
dropped. -/
theorem c5_counterexample :
    stringifyParse 1 (some dropAllRev) (.num 5) = .ok ⟨some (.num 5), [], []⟩ ∧
    dropAllRev (.prop "undefined") (.num 5) = .ok none := by
  constructor
  · rw [stringifyParse_run 1 (.num 5) (by simp [depthV]) (by simp [goodVal])]
    simp [revive]
  · rfl

/-- C7 (amended): encoding an array [a,b,c] and decoding without a reviver
preserves order; with the index-1-dropping reviver the result is the
compacted two-element array [a,c] provided a, b, c are scalars — for
container entries the same reviver also prunes inside them, since a reviver
keyed on the index applies at every nesting level (see the counterexample). -/
theorem c7_array_order :
    (∀ (a b c : Value) (fuel : Nat), goodVal (.arr [a, b, c]) = true →
       depthV (.arr [a, b, c]) ≤ fuel →
       encodeDecode fuel (.arr [a, b, c]) = some (some (.arr [a, b, c]))) ∧
    (∀ (a b c : Value) (fuel : Nat), basicVal a = true → basicVal b = true →
       basicVal c = true →
       stringifyParse (fuel + 2) (some dropIdx1) (.arr [a, b, c]) =
         .ok ⟨some (.arr [a, c]), [],
              [(.idx 0, a), (.idx 1, b), (.idx 2, c)]⟩) := by
  constructor
  · intro a b c fuel hg hd
    exact roundTrip_good fuel _ hd hg
  · intro a b c fuel ha hb hc
    have hg : goodVal (.arr [a, b, c]) = true := by
      simp [goodVal, goodElems, basic_good ha, basic_good hb, basic_good hc]
    have hd : depthV (.arr [a, b, c]) ≤ fuel + 2 := by
      simp [depthV, depthElems, depth_basic ha, depth_basic hb, depth_basic hc]
    rw [stringifyParse_run (fuel + 2) _ hd hg]
    have h0 : dropIdx1 (JKey.idx 0) a = .ok (some a) := by simp [dropIdx1]
    have h1 : dropIdx1 (JKey.idx 1) b = .ok none := by simp [dropIdx1]
    have h2 : dropIdx1 (JKey.idx 2) c = .ok (some c) := by simp [dropIdx1]
    have hElems : reviveElems (revive (fuel + 1) dropIdx1) dropIdx1 0 [a, b, c] =
        .ok ([a, c], [(.idx 0, a), (.idx 1, b), (.idx 2, c)]) := by
      simp [reviveElems, h0, h1, h2, revive_basic dropIdx1 fuel a ha,
            revive_basic dropIdx1 fuel b hb, revive_basic dropIdx1 fuel c hc]
    show ((match revive (fuel + 2) dropIdx1 (Value.arr [a, b, c]) with
           | .error er => .error er
           | .ok (v', cs) => .ok ⟨some v', [], cs⟩) : Except PErr PResult) =
        .ok ⟨some (.arr [a, c]), [], [(.idx 0, a), (.idx 1, b), (.idx 2, c)]⟩
    rw [show revive (fuel + 2) dropIdx1 (Value.arr [a, b, c]) =
          (match reviveElems (revive (fuel + 1) dropIdx1) dropIdx1 0 [a, b, c] with
           | .error er => .error er
           | .ok (vs, cs) => .ok (.arr vs, cs)) from rfl]
    rw [hElems]

/-- C7 witness: [1,2,3] round-trips in order; with the index-1 dropper it
compacts to [1,3]. -/
theorem c7_array_order_witness :
    (goodVal (.arr [.num 1, .num 2, .num 3]) = true ∧
     encodeDecode 2 (.arr [.num 1, .num 2, .num 3]) =
       some (some (.arr [.num 1, .num 2, .num 3]))) ∧
    stringifyParse 2 (some dropIdx1) (.arr [.num 1, .num 2, .num 3]) =
      .ok ⟨some (.arr [.num 1, .num 3]), [],
           [(.idx 0, .num 1), (.idx 1, .num 2), (.idx 2, .num 3)]⟩ :=
  ⟨⟨by simp [goodVal, goodElems],
    c7_array_order.1 (.num 1) (.num 2) (.num 3) 2
      (by simp [goodVal, goodElems]) (by simp [depthV, depthElems])⟩,
   c7_array_order.2 (.num 1) (.num 2) (.num 3) 0 (by decide) (by decide)
     (by decide)⟩

/-- C7 counterexample: for [a,b,c] with a a nested array, the reviver that
returns the omitted sentinel for index 1 does NOT yield [a,c]: it also drops
index 1 inside a, so the result differs from the claimed [a,c]. -/
theorem c7_counterexample :
    stringifyParse 4 (some dropIdx1)
        (.arr [.arr [.num 1, .num 2], .num 3, .num 4]) =
      .ok ⟨some (.arr [.arr [.num 1], .num 4]), [],
           [(.idx 0, .arr [.num 1, .num 2]), (.idx 0, .num 1), (.idx 1, .num 2),
            (.idx 1, .num 3), (.idx 2, .num 4)]⟩ ∧
    Value.arr [.arr [.num 1], .num 4] ≠
      Value.arr [.arr [.num 1, .num 2], .num 4] := by
  constructor
  · rw [stringifyParse_run 4 _ (by simp [depthV, depthElems])
        (by simp [goodVal, goodElems])]
    simp [revive, reviveElems, dropIdx1]
  · simp

/-- C3 (code_bug evaluation): the space argument is NOT clamped to [0,10]:
space = 25 yields a 25-space indent (differing from the 10-space indent of
space = 10), space = -1 raises RangeError from ' '.repeat (instead of the
claimed compact output, which space = 0 does produce), and a string space of
11 characters is handed to the writer untruncated — contradicting both the
claim and the function's own JSDoc. -/
theorem c3_space_unclamped :
    normalizeSpace (some (.inl 25)) =
      .ok (some (String.mk (List.replicate 25 ' '))) ∧
    normalizeSpace (some (.inl 10)) =
      .ok (some (String.mk (List.replicate 10 ' '))) ∧
    String.mk (List.replicate 25 ' ') ≠ String.mk (List.replicate 10 ' ') ∧
    normalizeSpace (some (.inl (-1))) = .error .rangeErr ∧
    normalizeSpace (some (.inl 0)) = .ok (some "") ∧
    normalizeSpace (some (.inr "0123456789X")) = .ok (some "0123456789X") ∧
    (∀ (v : Value) (fuel : Nat) (rep : Option (List String ⊕ Replacer)),
       Stringify fuel v rep (some (.inl (-1))) = .error .rangeErr) := by
  refine ⟨rfl, rfl, by decide, rfl, rfl, rfl, ?_⟩
  intro v fuel rep
  rfl

/-- C8: stringify renders null as a self-closing element — no text, no
children — both as an entry and at the root (the clone pass first turns null
into the empty object, which serializes identically); and the parse open-tag
handler maps every self-closing element, whatever its tag name, to null
stored under its (coerced) name attribute in the current container.  The
null round trip closes the loop. -/
theorem c8_null_selfclosing :
    (∀ (k : String),
       stringifyEntry k .null = .elem "object" [("name", k)] none [] ∧
       treeEvents (stringifyEntry k .null) =
         [.openTag "object" [("name", k)] true, .close]) ∧
    (∀ (fuel : Nat),
       Stringify (fuel + 1) .null none none =
         .ok (⟨none, .elem "object" [] none []⟩, []) ∧
       treeEvents (.elem "object" [] none []) =
         [.openTag "object" [] true, .close]) ∧
    (∀ (tag : String) (attrs : List (String × String)) (st : PState),
       st.dead = false →
       step st (.openTag tag attrs true) =
         .ok ⟨⟨tag, nameOf attrs, .nullT, none⟩ :: st.path,
              st.current.store (nameOf attrs) .null, false,
              some (st.rootKey.getD (nameOf attrs)), st.log⟩) ∧
    (∀ (fuel : Nat), encodeDecode (fuel + 1) .null = some (some .null)) := by
  refine ⟨?_, ?_, ?_, ?_⟩
  · intro k
    constructor
    · simp [stringifyEntry, stringifyText, stringifyChildren, getTagname]
    · simp [stringifyEntry, stringifyText, stringifyChildren, getTagname,
            treeEvents]
  · intro fuel
    constructor
    · simp [Stringify, normalizeSpace, clone, getTagname, stringifyText,
            stringifyChildren, stringifyFields]
    · simp [treeEvents]
  · intro tag attrs st hd
    simp [step, hd]
  · intro fuel
    simp [encodeDecode, Stringify, normalizeSpace, clone, getTagname,
          stringifyText, stringifyChildren, stringifyFields, treeEvents,
          ParseRun, runEvents, step, initState, nameOf, lookupAttr, basicTag,
          Cur.store, setKey, Cur.lookupKey, lookupField]

/-- C8 witness: the open-tag handler at a concrete live state and a
self-closing element with an arbitrary (non-recognized) tag name. -/
theorem c8_null_selfclosing_witness :
    initState.dead = false ∧
    step initState (.openTag "custom" [("name", "k")] true) =
      .ok ⟨[⟨"custom", "k", .nullT, none⟩], Cur.obj [("k", .null)], false,
           some "k", []⟩ := by
  refine ⟨rfl, ?_⟩
  have h := c8_null_selfclosing.2.2.1 "custom" [("name", "k")] initState rfl
  simpa [initState, nameOf, lookupAttr, Cur.store, setKey] using h

theorem getTagname_ne_function {x : Value} (h : x.isFunc = false) :
    (getTagname x != "function") = true := by
  cases x <;> simp [getTagname, Value.isFunc] at h ⊢

/- Serialize never emits an element for a function entry: everything below an
   entry element has a non-"function" tag. -/
theorem funcFree_children (d : Nat) : ∀ v, sizeOf v ≤ d →
    funcFreeList (stringifyChildren v) = true := by
  induction d using Nat.strong_induction_on with
  | _ d ih =>
    intro v hsz
    cases v with
    | arr xs =>
      have hinner : ∀ (t : List Value), (∀ x ∈ t, x ∈ xs) → ∀ n,
          funcFreeList (stringifyElems n t) = true := by
        intro t
        induction t with
        | nil => intro _ n; simp [stringifyElems, funcFreeList]
        | cons x tl ihl =>
          intro hmem n
          by_cases hf : x.isFunc = true
          · simp [stringifyElems, hf,
                  ihl (fun y hy => hmem y (List.mem_cons_of_mem _ hy)) (n + 1)]
          · have hf' : x.isFunc = false := by simpa using hf
            have hx : sizeOf x < d :=
              lt_of_lt_of_le (sizeOf_mem_arr (hmem x (List.mem_cons_self ..))) hsz
            have h1 := ih (sizeOf x) hx x le_rfl
            simp [stringifyElems, hf', funcFreeList, funcFreeBelow,
                  stringifyEntry, XTree.tagOf, getTagname_ne_function hf', h1,
                  ihl (fun y hy => hmem y (List.mem_cons_of_mem _ hy)) (n + 1)]
      simp only [stringifyChildren]
      exact hinner xs (fun y hy => hy) 0
    | obj fs =>
      have hinner : ∀ (t : List (String × Value)), (∀ p ∈ t, p ∈ fs) →
          funcFreeList (stringifyFields t) = true := by
        intro t
        induction t with
        | nil => intro _; simp [stringifyFields, funcFreeList]
        | cons p tl ihl =>
          intro hmem
          obtain ⟨k, x⟩ := p
          by_cases hf : x.isFunc = true
          · simp [stringifyFields, hf,
                  ihl (fun q hq => hmem q (List.mem_cons_of_mem _ hq))]
          · have hf' : x.isFunc = false := by simpa using hf
            have hx : sizeOf x < d :=
              lt_of_lt_of_le (sizeOf_mem_obj (hmem (k, x) (List.mem_cons_self ..)))
                hsz
            have h1 := ih (sizeOf x) hx x le_rfl
            simp [stringifyFields, hf', funcFreeList, funcFreeBelow,
                  stringifyEntry, XTree.tagOf, getTagname_ne_function hf', h1,
                  ihl (fun q hq => hmem q (List.mem_cons_of_mem _ hq))]
      simp only [stringifyChildren]
      exact hinner fs (fun q hq => hq)
    | null => simp [stringifyChildren, funcFreeList]
    | bool b => simp [stringifyChildren, funcFreeList]
    | num n => simp [stringifyChildren, funcFreeList]
    | str s => simp [stringifyChildren, funcFreeList]
    | date ms => simp [stringifyChildren, funcFreeList]
    | func => simp [stringifyChildren, funcFreeList]

/- Every element the serializer writes below an entry carries a name
   attribute. -/
theorem named_children (d : Nat) : ∀ v, sizeOf v ≤ d →
    namedList (stringifyChildren v) = true := by
  induction d using Nat.strong_induction_on with
  | _ d ih =>
    intro v hsz
    cases v with
    | arr xs =>
      have hinner : ∀ (t : List Value), (∀ x ∈ t, x ∈ xs) → ∀ n,
          namedList (stringifyElems n t) = true := by
        intro t
        induction t with
        | nil => intro _ n; simp [stringifyElems, namedList]
        | cons x tl ihl =>
          intro hmem n
          by_cases hf : x.isFunc = true
          · simp [stringifyElems, hf,
                  ihl (fun y hy => hmem y (List.mem_cons_of_mem _ hy)) (n + 1)]
          · have hf' : x.isFunc = false := by simpa using hf
            have hx : sizeOf x < d :=
              lt_of_lt_of_le (sizeOf_mem_arr (hmem x (List.mem_cons_self ..))) hsz
            have h1 := ih (sizeOf x) hx x le_rfl
            simp [stringifyElems, hf', namedList, namedBelow, stringifyEntry,
                  XTree.attrsOf, lookupAttr, h1,
                  ihl (fun y hy => hmem y (List.mem_cons_of_mem _ hy)) (n + 1)]
      simp only [stringifyChildren]
      exact hinner xs (fun y hy => hy) 0
    | obj fs =>
      have hinner : ∀ (t : List (String × Value)), (∀ p ∈ t, p ∈ fs) →
          namedList (stringifyFields t) = true := by
        intro t
        induction t with
        | nil => intro _; simp [stringifyFields, namedList]
        | cons p tl ihl =>
          intro hmem
          obtain ⟨k, x⟩ := p
          by_cases hf : x.isFunc = true
          · simp [stringifyFields, hf,
                  ihl (fun q hq => hmem q (List.mem_cons_of_mem _ hq))]
          · have hf' : x.isFunc = false := by simpa using hf
            have hx : sizeOf x < d :=
              lt_of_lt_of_le (sizeOf_mem_obj (hmem (k, x) (List.mem_cons_self ..)))
                hsz
            have h1 := ih (sizeOf x) hx x le_rfl
            simp [stringifyFields, hf', namedList, namedBelow, stringifyEntry,
                  XTree.attrsOf, lookupAttr, h1,
                  ihl (fun q hq => hmem q (List.mem_cons_of_mem _ hq))]
      simp only [stringifyChildren]
      exact hinner fs (fun q hq => hq)
    | null => simp [stringifyChildren, namedList]
    | bool b => simp [stringifyChildren, namedList]
    | num n => simp [stringifyChildren, namedList]
    | str s => simp [stringifyChildren, namedList]
    | date ms => simp [stringifyChildren, namedList]
    | func => simp [stringifyChildren, namedList]

/-- C6 (amended): the clone pass does NOT drop function-typed entries — it
passes functions through unchanged (see counterexample) — but the serialize
pass skips every function-valued entry, so no element below the root is ever
emitted for a function; a top-level function value still yields a childless
root element tagged "function". -/
theorem c6_functions_skipped :
    (∀ (fuel : Nat), clone (fuel + 1) (mkReplacer none) .func = .ok (.func, [])) ∧
    (∀ (v : Value) (k : String), funcFreeBelow (stringifyEntry k v) = true) := by
  constructor
  · intro fuel
    rfl
  · intro v k
    have h := funcFree_children (sizeOf v) v le_rfl
    simp [funcFreeBelow, stringifyEntry, h]

/-- C6 counterexample: the clone pass, with the default (identity) replacer,
keeps a function-typed entry: the cloned tree handed to the serialize pass
does contain a function. -/
theorem c6_counterexample :
    clone 2 (mkReplacer none) (.obj [("f", .func)]) =
      .ok (.obj [("f", .func)], [(JKey.prop "f", .func)]) ∧
    hasFunc (.obj [("f", .func)]) = true := by
  constructor
  · have hrep : mkReplacer none (JKey.prop "f") Value.func = some .func := rfl
    have hfn : clone 1 (mkReplacer none) Value.func = .ok (.func, []) := rfl
    simp [clone, cloneFields, hrep, hfn]
  · simp [hasFunc, hasFuncFields]

/-- C4 (amended): every element the serializer writes for an entry carries a
name attribute holding the key it is stored under (array entries keyed by
their zero-based index rendered as decimal text), and that holds recursively
below every entry; but the document's root element carries NO name attribute
— line 227 opens it without any writeAttribute — and the decoder reads the
absent attribute as undefined, coercing it to the property key "undefined"
under which the top-level value is stored and returned. -/
theorem c4_name_attributes :
    (∀ (k : String) (v : Value),
       XTree.attrsOf (stringifyEntry k v) = [("name", k)]) ∧
    (∀ (v : Value) (k : String), namedBelow (stringifyEntry k v) = true) ∧
    (∀ (n : Nat) (x : Value) (t : List Value), x.isFunc = false →
       stringifyElems n (x :: t) =
         stringifyEntry (decStr n) x :: stringifyElems (n + 1) t) ∧
    (∀ (fuel : Nat) (v : Value) (rep : Option (List String ⊕ Replacer))
       (sp : Option (Int ⊕ String)) (doc : Doc) (cs : List (JKey × Value)),
       Stringify fuel v rep sp = .ok (doc, cs) → XTree.attrsOf doc.root = []) ∧
    nameOf [] = "undefined" := by
  refine ⟨?_, ?_, ?_, ?_, rfl⟩
  · intro k v
    simp [stringifyEntry, XTree.attrsOf]
  · intro v k
    have h := named_children (sizeOf v) v le_rfl
    simp [namedBelow, stringifyEntry, h]
  · intro n x t hf
    simp [stringifyElems, hf]
  · intro fuel v rep sp doc cs h
    unfold Stringify at h
    cases hn : normalizeSpace sp with
    | error e =>
      rw [hn] at h
      exact absurd h (by simp)
    | ok ind =>
      rw [hn] at h
      cases hc : clone fuel (mkReplacer rep) v with
      | error e =>
        rw [hc] at h
        exact absurd h (by simp)
      | ok wc =>
        obtain ⟨w, cs'⟩ := wc
        rw [hc] at h
        simp only [Except.ok.injEq, Prod.mk.injEq] at h
        rw [← h.1]
        rfl

/-- C4 witness: instances of the name-attribute facts at concrete entries and
a concrete document. -/
theorem c4_name_attributes_witness :
    XTree.attrsOf (stringifyEntry "k" (.num 2)) = [("name", "k")] ∧
    namedBelow (stringifyEntry "r" (.arr [.num 1, .bool false])) = true ∧
    ((Value.num 7).isFunc = false ∧
     stringifyElems 4 [.num 7] =
       stringifyEntry (decStr 4) (.num 7) :: stringifyElems 5 []) ∧
    (Stringify 2 (.bool true) none none =
       .ok (⟨none, .elem "boolean" [] (some "true") []⟩, []) ∧
     XTree.attrsOf (Doc.mk none (.elem "boolean" [] (some "true") [])).root = []) := by
  refine ⟨c4_name_attributes.1 "k" (.num 2),
          c4_name_attributes.2.1 (.arr [.num 1, .bool false]) "r",
          ⟨rfl, c4_name_attributes.2.2.1 4 (.num 7) [] rfl⟩, ?_, ?_⟩
  · simp [Stringify, normalizeSpace, clone, getTagname, stringifyText,
          stringifyChildren]
  · exact c4_name_attributes.2.2.2.1 2 (.bool true) none none
      ⟨none, .elem "boolean" [] (some "true") []⟩ []
      (by simp [Stringify, normalizeSpace, clone, getTagname, stringifyText,
                stringifyChildren])

/-- C4 counterexample: the root element of the document produced for the
value 1 has an empty attribute list — no name attribute — falsifying the
claim that every element, including the root, carries one. -/
theorem c4_counterexample :
    Stringify 2 (.num 1) none none =
      .ok (⟨none, .elem "number" [] (some "1") []⟩, []) ∧
    lookupAttr (XTree.attrsOf (.elem "number" [] (some "1") [])) "name" = none := by
  constructor
  · have h1 : decStrInt 1 = "1" := by decide
    simp [Stringify, normalizeSpace, clone, getTagname, stringifyText,
          stringifyChildren, h1]
  · rfl

/- The allow-list clone only keeps listed object keys and empties arrays. -/
theorem clone_allow (ks : List String) : ∀ (fuel : Nat) (v w : Value)
    (cs : List (JKey × Value)),
    clone fuel (mkReplacer (some (.inl ks))) v = .ok (w, cs) →
    allowClean ks w = true := by
  intro fuel
  induction fuel with
  | zero =>
    intro v w cs h
    exact absurd h (by simp [clone])
  | succ f ihf =>
    intro v w cs h
    cases v with
    | date ms =>
      simp only [clone, Except.ok.injEq, Prod.mk.injEq] at h
      rw [← h.1]
      simp [allowClean]
    | null =>
      simp only [clone, Except.ok.injEq, Prod.mk.injEq] at h
      rw [← h.1]
      simp [allowClean, allowFields]
    | bool b =>
      simp only [clone, Except.ok.injEq, Prod.mk.injEq] at h
      rw [← h.1]
      simp [allowClean]
    | num n =>
      simp only [clone, Except.ok.injEq, Prod.mk.injEq] at h
      rw [← h.1]
      simp [allowClean]
    | str s =>
      simp only [clone, Except.ok.injEq, Prod.mk.injEq] at h
      rw [← h.1]
      simp [allowClean]
    | func =>
      simp only [clone, Except.ok.injEq, Prod.mk.injEq] at h
      rw [← h.1]
      simp [allowClean]
    | arr xs =>
      have hempty : ∀ (t : List Value) (n : Nat) (vs : List Value)
          (cs2 : List (JKey × Value)),
          cloneElems (clone f (mkReplacer (some (.inl ks))))
              (mkReplacer (some (.inl ks))) n t = .ok (vs, cs2) → vs = [] := by
        intro t
        induction t with
        | nil =>
          intro n vs cs2 h2
          simp only [cloneElems, Except.ok.injEq, Prod.mk.injEq] at h2
          exact h2.1.symm
        | cons x tl ihl =>
          intro n vs cs2 h2
          have hrep : mkReplacer (some (.inl ks)) (JKey.idx n) x = none := rfl
          simp only [cloneElems, hrep] at h2
          cases ht : cloneElems (clone f (mkReplacer (some (.inl ks))))
              (mkReplacer (some (.inl ks))) (n + 1) tl with
          | error er => rw [ht] at h2; exact absurd h2 (by simp)
          | ok pr =>
            obtain ⟨vs', cs'⟩ := pr
            rw [ht] at h2
            simp only [Except.ok.injEq, Prod.mk.injEq] at h2
            rw [← h2.1]
            exact ihl (n + 1) vs' cs' ht
      simp only [clone] at h
      cases he : cloneElems (clone f (mkReplacer (some (.inl ks))))
          (mkReplacer (some (.inl ks))) 0 xs with
      | error er => rw [he] at h; exact absurd h (by simp)
      | ok pr =>
        obtain ⟨vs, cs2⟩ := pr
        rw [he] at h
        simp only [Except.ok.injEq, Prod.mk.injEq] at h
        rw [← h.1]
        have hv := hempty xs 0 vs cs2 he
        subst hv
        simp [allowClean]
    | obj fs =>
      have hfields : ∀ (t : List (String × Value)) (ws : List (String × Value))
          (cs2 : List (JKey × Value)),
          cloneFields (clone f (mkReplacer (some (.inl ks))))
              (mkReplacer (some (.inl ks))) t = .ok (ws, cs2) →
            allowFields ks ws = true := by
        intro t
        induction t with
        | nil =>
          intro ws cs2 h2
          simp only [cloneFields, Except.ok.injEq, Prod.mk.injEq] at h2
          rw [← h2.1]
          simp [allowFields]
        | cons p tl ihl =>
          intro ws cs2 h2
          obtain ⟨k, x⟩ := p
          by_cases hk : ks.contains k = true
          · have hrep : mkReplacer (some (.inl ks)) (JKey.prop k) x = some x := by
              simp only [mkReplacer]
              rw [if_pos hk]
            simp only [cloneFields, hrep] at h2
            cases hcx : clone f (mkReplacer (some (.inl ks))) x with
            | error er => rw [hcx] at h2; exact absurd h2 (by simp)
            | ok pw =>
              obtain ⟨w1, cs1⟩ := pw
              rw [hcx] at h2
              cases hct : cloneFields (clone f (mkReplacer (some (.inl ks))))
                  (mkReplacer (some (.inl ks))) tl with
              | error er => rw [hct] at h2; exact absurd h2 (by simp)
              | ok pt =>
                obtain ⟨ws2, cs2'⟩ := pt
                rw [hct] at h2
                simp only [Except.ok.injEq, Prod.mk.injEq] at h2
                rw [← h2.1]
                have hk' : k ∈ ks := by simpa using hk
                simp [allowFields, hk', ihf x w1 cs1 hcx, ihl ws2 cs2' hct]
          · have hrep : mkReplacer (some (.inl ks)) (JKey.prop k) x = none := by
              simp only [mkReplacer]
              rw [if_neg hk]
            simp only [cloneFields, hrep] at h2
            cases hct : cloneFields (clone f (mkReplacer (some (.inl ks))))
                (mkReplacer (some (.inl ks))) tl with
            | error er => rw [hct] at h2; exact absurd h2 (by simp)
            | ok pt =>
              obtain ⟨ws2, cs2'⟩ := pt
              rw [hct] at h2
              simp only [Except.ok.injEq, Prod.mk.injEq] at h2
              rw [← h2.1]
              exact ihl ws2 cs2' hct
      simp only [clone] at h
      cases he : cloneFields (clone f (mkReplacer (some (.inl ks))))
          (mkReplacer (some (.inl ks))) fs with
      | error er => rw [he] at h; exact absurd h (by simp)
      | ok pr =>
        obtain ⟨ws, cs2⟩ := pr
        rw [he] at h
        simp only [Except.ok.injEq, Prod.mk.injEq] at h
        rw [← h.1]
        have := hfields fs ws cs2 he
        simpa [allowClean] using this

/- An allow-clean value serializes to elements whose names all come from the
   allow-list, at every level below the root. -/
theorem allowedBelow_of_clean (ks : List String) (d : Nat) : ∀ w, sizeOf w ≤ d →
    allowClean ks w = true → allowedList ks (stringifyChildren w) = true := by
  induction d using Nat.strong_induction_on with
  | _ d ih =>
    intro w hsz hcl
    cases w with
    | arr xs =>
      have hx : xs.isEmpty = true := by simpa [allowClean] using hcl
      have : xs = [] := by
        cases xs with
        | nil => rfl
        | cons a t => simp at hx
      subst this
      simp [stringifyChildren, stringifyElems, allowedList]
    | obj fs =>
      have hf : allowFields ks fs = true := by simpa [allowClean] using hcl
      have hinner : ∀ (t : List (String × Value)), (∀ p ∈ t, p ∈ fs) →
          allowFields ks t = true →
          allowedList ks (stringifyFields t) = true := by
        intro t
        induction t with
        | nil => intro _ _; simp [stringifyFields, allowedList]
        | cons p tl ihl =>
          intro hmem ht
          obtain ⟨k, x⟩ := p
          have h3 : ks.contains k = true ∧ allowClean ks x = true ∧
              allowFields ks tl = true := by
            simpa [allowFields, Bool.and_eq_true, and_assoc] using ht
          by_cases hfn : x.isFunc = true
          · simp [stringifyFields, hfn,
                  ihl (fun q hq => hmem q (List.mem_cons_of_mem _ hq)) h3.2.2]
          · have hfn' : x.isFunc = false := by simpa using hfn
            have hx : sizeOf x < d :=
              lt_of_lt_of_le (sizeOf_mem_obj (hmem (k, x) (List.mem_cons_self ..)))
                hsz
            have hbelow := ih (sizeOf x) hx x le_rfl h3.2.1
            have hk' : k ∈ ks := by simpa using h3.1
            simp [stringifyFields, hfn', allowedList, allowedBelow,
                  stringifyEntry, XTree.attrsOf, lookupAttr, hk', hbelow,
                  ihl (fun q hq => hmem q (List.mem_cons_of_mem _ hq)) h3.2.2]
      simp only [stringifyChildren]
      exact hinner fs (fun q hq => hq) hf
    | null => simp [stringifyChildren, allowedList]
    | bool b => simp [stringifyChildren, allowedList]
    | num n => simp [stringifyChildren, allowedList]
    | str s => simp [stringifyChildren, allowedList]
    | date ms => simp [stringifyChildren, allowedList]
    | func => simp [stringifyChildren, allowedList]

/-- C9: stringify with the allow-list ["a","b"] emits, below the root, only
elements whose name attribute is "a" or "b", at every nesting level —
entries under any other key are excluded, nested occurrences included.
(Array entries, whose numeric keys never strictly-equal a string allow-list
member, are all excluded as well.) -/
theorem c9_allowlist (v : Value) (fuel : Nat) (doc : Doc)
    (cs : List (JKey × Value))
    (h : Stringify fuel v (some (.inl ["a", "b"])) none = .ok (doc, cs)) :
    allowedBelow ["a", "b"] doc.root = true := by
  unfold Stringify at h
  rw [show normalizeSpace none = Except.ok none from rfl] at h
  cases hc : clone fuel (mkReplacer (some (.inl ["a", "b"]))) v with
  | error e =>
    rw [hc] at h
    exact absurd h (by simp)
  | ok wc =>
    obtain ⟨w, cs'⟩ := wc
    rw [hc] at h
    simp only [Except.ok.injEq, Prod.mk.injEq] at h
    rw [← h.1]
    have hclean := clone_allow ["a", "b"] fuel v w cs' hc
    have hbelow := allowedBelow_of_clean ["a", "b"] (sizeOf w) w le_rfl hclean
    simpa [allowedBelow] using hbelow

/-- C9 witness: a concrete object with keys inside and outside the list, a
disallowed nested key included. -/
theorem c9_allowlist_witness :
    Stringify 3 (.obj [("a", .obj [("b", .num 1), ("z", .num 2)]), ("c", .num 3)])
        (some (.inl ["a", "b"])) none =
      .ok (⟨none, .elem "object" [] none
              [.elem "object" [("name", "a")] none
                 [.elem "number" [("name", "b")] (some "1") []]]⟩,
           [(.prop "a", .obj [("b", .num 1), ("z", .num 2)]), (.prop "b", .num 1),
            (.prop "z", .num 2), (.prop "c", .num 3)]) ∧
    allowedBelow ["a", "b"]
      (XTree.elem "object" [] none
        [.elem "object" [("name", "a")] none
           [.elem "number" [("name", "b")] (some "1") []]]) = true := by
  have hs : Stringify 3
      (.obj [("a", .obj [("b", .num 1), ("z", .num 2)]), ("c", .num 3)])
      (some (.inl ["a", "b"])) none =
      .ok (⟨none, .elem "object" [] none
              [.elem "object" [("name", "a")] none
                 [.elem "number" [("name", "b")] (some "1") []]]⟩,
           [(.prop "a", .obj [("b", .num 1), ("z", .num 2)]), (.prop "b", .num 1),
            (.prop "z", .num 2), (.prop "c", .num 3)]) := by
    have h1 : decStrInt 1 = "1" := by decide
    simp [Stringify, normalizeSpace, clone, cloneFields, mkReplacer, getTagname,
          stringifyText, stringifyChildren, stringifyFields, stringifyEntry,
          Value.isFunc, h1]
  exact ⟨hs, c9_allowlist _ 3 _ _ hs⟩

theorem cloneElems_dropAll (f : Value → Except SErr (Value × List (JKey × Value))) :
    ∀ (t : List Value) (n : Nat),
      cloneElems f dropAllRep n t = .ok ([], topEntriesElems n t) := by
  intro t
  induction t with
  | nil => intro n; rfl
  | cons x tl ihl =>
    intro n
    simp [cloneElems, dropAllRep, ihl (n + 1), topEntriesElems]

theorem cloneFields_dropAll (f : Value → Except SErr (Value × List (JKey × Value))) :
    ∀ (t : List (String × Value)),
      cloneFields f dropAllRep t = .ok ([], topEntriesFields t) := by
  intro t
  induction t with
  | nil => rfl
  | cons p tl ihl =>
    obtain ⟨k, x⟩ := p
    simp [cloneFields, dropAllRep, ihl, topEntriesFields]

/- The drop-everything replacer never touches the root value itself: scalars
   survive untouched, containers are emptied, and the replacer is called on
   exactly the immediate entries. -/
theorem clone_dropAll (fuel : Nat) (v : Value) :
    clone (fuel + 1) dropAllRep v = .ok (hollow v, topEntries v) := by
  cases v with
  | date ms => rfl
  | null => rfl
  | bool b => rfl
  | num n => rfl
  | str s => rfl
  | func => rfl
  | arr xs => simp [clone, cloneElems_dropAll, hollow, topEntries]
  | obj fs => simp [clone, cloneFields_dropAll, hollow, topEntries]

theorem mem_topEntriesElems : ∀ (t : List Value) (n : Nat)
    (p : JKey × Value), p ∈ topEntriesElems n t → p.2 ∈ t := by
  intro t
  induction t with
  | nil => intro n p hp; simp [topEntriesElems] at hp
  | cons x tl ihl =>
    intro n p hp
    simp only [topEntriesElems, List.mem_cons] at hp
    rcases hp with rfl | hp'
    · exact List.mem_cons_self ..
    · exact List.mem_cons_of_mem _ (ihl (n + 1) p hp')

theorem mem_topEntriesFields : ∀ (t : List (String × Value))
    (p : JKey × Value), p ∈ topEntriesFields t → ∃ k, (k, p.2) ∈ t := by
  intro t
  induction t with
  | nil => intro p hp; simp [topEntriesFields] at hp
  | cons q tl ihl =>
    intro p hp
    obtain ⟨k, x⟩ := q
    simp only [topEntriesFields, List.mem_cons] at hp
    rcases hp with rfl | hp'
    · exact ⟨k, List.mem_cons_self ..⟩
    · obtain ⟨k', hk'⟩ := ihl p hp'
      exact ⟨k', List.mem_cons_of_mem _ hk'⟩

/- An immediate entry's value is a proper subtree, never the container
   itself. -/
theorem topEntries_ne (v : Value) : ∀ p ∈ topEntries v, p.2 ≠ v := by
  cases v with
  | arr xs =>
    intro p hp heq
    have hmem : p.2 ∈ xs :=
      mem_topEntriesElems xs 0 p (by simpa [topEntries] using hp)
    have hd := depth_mem_elems hmem
    have hv : depthV (Value.arr xs) = depthElems xs + 1 := by simp [depthV]
    rw [heq] at hd
    omega
  | obj fs =>
    intro p hp heq
    obtain ⟨k, hmem⟩ :=
      mem_topEntriesFields fs p (by simpa [topEntries] using hp)
    have hd := depth_mem_fields hmem
    have hv : depthV (Value.obj fs) = depthFields fs + 1 := by simp [depthV]
    rw [heq] at hd
    omega
  | null => intro p hp; simp [topEntries] at hp
  | bool b => intro p hp; simp [topEntries] at hp
  | num n => intro p hp; simp [topEntries] at hp
  | str s => intro p hp; simp [topEntries] at hp
  | date ms => intro p hp; simp [topEntries] at hp
  | func => intro p hp; simp [topEntries] at hp

/-- C10: the replacer is applied only to array elements and object
properties, never to the root value itself: a scalar (or function) root is
cloned untouched with no replacer call whatever the replacer is; with the
drop-every-key replacer the root is still encoded — the document keeps a
root element for the hollowed value — and the replacer's calls are exactly
the immediate entries, none of which is the root value itself. -/
theorem c10_replacer_scope :
    (∀ (r : Replacer) (fuel : Nat) (v : Value), basicVal v = true →
       clone (fuel + 1) r v = .ok (v, [])) ∧
    (∀ (r : Replacer) (fuel : Nat), clone (fuel + 1) r .func = .ok (.func, [])) ∧
    (∀ (fuel : Nat) (v : Value),
       Stringify (fuel + 1) v (some (.inr dropAllRep)) none =
         .ok (⟨none, .elem (getTagname (hollow v)) []
                 (stringifyText (hollow v)) (stringifyChildren (hollow v))⟩,
              topEntries v)) ∧
    (∀ (v : Value), ∀ p ∈ topEntries v, p.2 ≠ v) := by
  refine ⟨clone_basic, clone_func, ?_, topEntries_ne⟩
  intro fuel v
  have hrep : mkReplacer (some (.inr dropAllRep)) = dropAllRep := rfl
  simp [Stringify, normalizeSpace, hrep, clone_dropAll]

/-- C10 witness: a scalar root untouched by a replacer, and a one-field
object under the drop-everything replacer still encoding a root element. -/
theorem c10_replacer_scope_witness :
    basicVal (.str "s") = true ∧
    clone 1 dropAllRep (.str "s") = .ok (.str "s", []) ∧
    Stringify 1 (.obj [("x", .num 9)]) (some (.inr dropAllRep)) none =
      .ok (⟨none, .elem "object" [] none []⟩, [(.prop "x", .num 9)]) ∧
    (JKey.prop "x", Value.num 9).2 ≠ Value.obj [("x", .num 9)] := by
  refine ⟨by decide, c10_replacer_scope.1 dropAllRep 0 (.str "s") (by decide),
          ?_, ?_⟩
  · have h := c10_replacer_scope.2.2.1 0 (.obj [("x", .num 9)])
    simpa [hollow, getTagname, stringifyText, stringifyChildren,
           stringifyFields, topEntries, topEntriesFields] using h
  · exact c10_replacer_scope.2.2.2 (.obj [("x", .num 9)])
      (JKey.prop "x", .num 9) (by simp [topEntries, topEntriesFields])

